import Mathlib

/-!
Verification of the `mcheviron/cache` Go repository: a sharded in-memory
cache with per-item TTL and weight-bounded capacity enforced by sampled
eviction (`cache.go`, `shard.go`, `config.go`, `item.go`).

The Go code is shallowly embedded: Go maps become association lists, the
item pointers of the original become item records carrying a unique
allocation identity `id`, machine integers become `Nat`/`Int` (with an
explicit `% 2^64` where the code's `uint64` arithmetic can wrap, namely in
the LHD denominator), and the process-local PRNG becomes an explicit list
of oracle values stored in the cache state.  All operations are executed
sequentially, matching the claims under scrutiny.
-/

namespace CacheSpec

/-! ## Association list primitives (embedding of Go map operations) -/

/-- Lookup of a key in an association list; embeds `m[k]` on a Go map
(first binding wins; our lists are kept duplicate-free). -/
def alookup {β : Type} (k : String) : List (String × β) → Option β
  | [] => none
  | p :: r => if p.1 = k then some p.2 else alookup k r

/-- Insert-or-replace of a binding; embeds `m[k] = v` on a Go map. -/
def aupdate {β : Type} (k : String) (v : β) : List (String × β) → List (String × β)
  | [] => [(k, v)]
  | p :: r => if p.1 = k then (k, v) :: r else p :: aupdate k v r

/-- Removal of a binding; embeds `delete(m, k)` on a Go map. -/
def aerase {β : Type} (k : String) : List (String × β) → List (String × β)
  | [] => []
  | p :: r => if p.1 = k then r else p :: aerase k r

/-- The list of keys bound by an association list. -/
def akeys {β : Type} (l : List (String × β)) : List String := l.map (·.1)

section ALemmas

variable {β : Type} {k k' : String} {v : β} {l : List (String × β)}

theorem alookup_aupdate :
    ∀ l : List (String × β), alookup k' (aupdate k v l) =
      if k' = k then some v else alookup k' l := by
  intro l
  induction l with
  | nil =>
    by_cases h : k' = k
    · simp [aupdate, alookup, h]
    · simp [aupdate, alookup, h, Ne.symm h]
  | cons p r ih =>
    by_cases hp : p.1 = k
    · subst hp
      by_cases h : k' = p.1
      · simp [aupdate, alookup, h]
      · simp [aupdate, alookup, h, Ne.symm h]
    · by_cases h : k' = k
      · subst h
        simp [aupdate, alookup, hp, ih]
      · simp [aupdate, alookup, hp, h, ih]

theorem alookup_aupdate_self : alookup k (aupdate k v l) = some v := by
  simp [alookup_aupdate]

theorem alookup_aupdate_ne (h : k' ≠ k) :
    alookup k' (aupdate k v l) = alookup k' l := by
  simp [alookup_aupdate, h]

theorem aerase_sublist : ∀ l : List (String × β), (aerase k l).Sublist l := by
  intro l
  induction l with
  | nil => simp [aerase]
  | cons p r ih =>
    by_cases hp : p.1 = k
    · simpa [aerase, hp] using List.sublist_cons_self p r
    · simpa [aerase, hp] using ih.cons₂ p

theorem alookup_aerase_ne (h : k' ≠ k) :
    ∀ l : List (String × β), alookup k' (aerase k l) = alookup k' l := by
  intro l
  induction l with
  | nil => simp [aerase, alookup]
  | cons p r ih =>
    by_cases hp : p.1 = k
    · simp [aerase, alookup, hp, Ne.symm h]
    · simp [aerase, alookup, hp, ih]

theorem alookup_eq_none_of_not_mem_akeys (h : k ∉ akeys l) :
    alookup k l = none := by
  induction l with
  | nil => simp [alookup]
  | cons p r ih =>
    simp only [akeys, List.map_cons, List.mem_cons, not_or] at h
    simp [alookup, Ne.symm h.1, ih (by simpa [akeys] using h.2)]

theorem alookup_aerase_self (hnd : (akeys l).Nodup) :
    alookup k (aerase k l) = none := by
  induction l with
  | nil => simp [aerase, alookup]
  | cons p r ih =>
    simp only [akeys, List.map_cons, List.nodup_cons] at hnd
    by_cases hp : p.1 = k
    · have hk : k ∉ akeys r := by
        rw [akeys, ← hp]
        exact fun hmem => hnd.1 hmem
      simp only [aerase, hp, if_pos]
      exact alookup_eq_none_of_not_mem_akeys hk
    · have : (akeys r).Nodup := hnd.2
      simp [aerase, alookup, hp, ih this]

theorem akeys_aerase (l : List (String × β)) : akeys (aerase k l) ⊆ akeys l := by
  have h := ((aerase_sublist (k := k) l).map (·.1)).subset
  simpa [akeys] using h

theorem nodup_akeys_aerase (hnd : (akeys l).Nodup) : (akeys (aerase k l)).Nodup := by
  have h := ((aerase_sublist (k := k) l).map (·.1)).nodup
  simp only [akeys] at hnd ⊢
  exact h hnd

theorem length_aerase_of_present (hnd : (akeys l).Nodup) (h : (alookup k l).isSome) :
    (aerase k l).length = l.length - 1 := by
  induction l with
  | nil => simp [alookup] at h
  | cons p r ih =>
    simp only [akeys, List.map_cons, List.nodup_cons] at hnd
    by_cases hp : p.1 = k
    · simp [aerase, hp]
    · have h' : (alookup k r).isSome := by simpa [alookup, hp] using h
      have hr : r ≠ [] := by
        rintro rfl; simp [alookup] at h'
      have : 1 ≤ r.length := List.length_pos.mpr hr
      simp [aerase, hp, ih hnd.2 h']
      omega

theorem akeys_aupdate_of_present (h : (alookup k l).isSome) :
    akeys (aupdate k v l) = akeys l := by
  induction l with
  | nil => simp [alookup] at h
  | cons p r ih =>
    by_cases hp : p.1 = k
    · simp [aupdate, akeys, hp]
    · have h' : (alookup k r).isSome := by simpa [alookup, hp] using h
      simp [aupdate, akeys, hp] at ih ⊢
      exact ih h'

theorem akeys_aupdate_of_absent (h : alookup k l = none) :
    akeys (aupdate k v l) = akeys l ++ [k] := by
  induction l with
  | nil => simp [aupdate, akeys]
  | cons p r ih =>
    by_cases hp : p.1 = k
    · simp [alookup, hp] at h
    · have h' : alookup k r = none := by simpa [alookup, hp] using h
      simp [aupdate, akeys, hp] at ih ⊢
      exact ih h'

theorem length_aupdate_of_present (h : (alookup k l).isSome) :
    (aupdate k v l).length = l.length := by
  have := akeys_aupdate_of_present (v := v) h
  have h1 : (akeys (aupdate k v l)).length = (akeys l).length := by rw [this]
  simpa [akeys] using h1

theorem length_aupdate_of_absent (h : alookup k l = none) :
    (aupdate k v l).length = l.length + 1 := by
  have := akeys_aupdate_of_absent (v := v) h
  have h1 : (akeys (aupdate k v l)).length = (akeys l).length + 1 := by simp [this]
  simpa [akeys] using h1

theorem nodup_akeys_aupdate_of_present (hnd : (akeys l).Nodup) (h : (alookup k l).isSome) :
    (akeys (aupdate k v l)).Nodup := by
  rw [akeys_aupdate_of_present h]; exact hnd

theorem alookup_isSome_of_mem_akeys :
    ∀ {l : List (String × β)}, k ∈ akeys l → (alookup k l).isSome := by
  intro l
  induction l with
  | nil => simp [akeys]
  | cons p r ih =>
    intro h
    by_cases hp : p.1 = k
    · simp [alookup, hp]
    · simp only [akeys, List.map_cons, List.mem_cons] at h
      rcases h with h | h
      · exact absurd h.symm hp
      · simpa [alookup, hp] using ih (by simpa [akeys] using h)

theorem not_mem_akeys_of_alookup_eq_none (h : alookup k l = none) : k ∉ akeys l := by
  intro hmem
  have := alookup_isSome_of_mem_akeys hmem
  rw [h] at this
  simp at this

theorem nodup_akeys_aupdate_of_absent (hnd : (akeys l).Nodup) (h : alookup k l = none) :
    (akeys (aupdate k v l)).Nodup := by
  rw [akeys_aupdate_of_absent h]
  have hk : k ∉ akeys l := not_mem_akeys_of_alookup_eq_none h
  simpa using List.Nodup.append hnd (by simp)
    (by simpa [List.disjoint_singleton] using hk)

theorem alookup_mem : ∀ {l : List (String × β)}, alookup k l = some v → (k, v) ∈ l := by
  intro l
  induction l with
  | nil => simp [alookup]
  | cons p r ih =>
    intro h
    by_cases hp : p.1 = k
    · simp only [alookup, hp, if_pos] at h
      obtain ⟨a, b⟩ := p
      simp only at hp
      subst hp
      injection h with h
      subst h
      exact List.mem_cons_self _ _
    · exact List.mem_cons_of_mem _ (ih (by simpa [alookup, hp] using h))

theorem mem_akeys_of_alookup (h : alookup k l = some v) : k ∈ akeys l := by
  have := alookup_mem h
  simpa [akeys] using ⟨v, this⟩

theorem alookup_of_mem_nodup (hnd : (akeys l).Nodup) (h : (k, v) ∈ l) :
    alookup k l = some v := by
  induction l with
  | nil => simp at h
  | cons p r ih =>
    simp only [akeys, List.map_cons, List.nodup_cons] at hnd
    rcases List.mem_cons.mp h with h | h
    · rw [← h]
      simp [alookup]
    · by_cases hp : p.1 = k
      · exfalso
        apply hnd.1
        rw [hp]
        exact List.mem_map.mpr ⟨(k, v), h, rfl⟩
      · simpa [alookup, hp] using ih hnd.2 h

end ALemmas

/-! ## Items (`item.go`)

`item.go` of the current revision is absent from the sources; its older
revisions are present and define `Value/Key/Extend/Expired/TTL/touch/
lastAccessTick` exactly as embedded below.  The four accessors that only
the current revision adds (`setCreatedTick`, `createdTickValue`, `hitsValue`,
`recordHit`) are modelled from the spec (see the individual doc comments).

An `Item` record stands for the Go heap object `*Item[T]`; the field `id`
is the allocation identity (pointer identity): the cache allocates items
with a strictly increasing counter, so distinct allocations carry distinct
ids and value equality of records coincides with Go pointer equality in
sequential executions. -/

structure Item (V : Type) where
  id : Nat
  key : String
  value : V
  /-- `expires` in nanoseconds, `int64` in Go. -/
  expires : Int
  /-- `weight`, `int` in Go. -/
  weight : Int
  /-- `lastAccess` tick, `uint64` in Go. -/
  lastAccess : Nat
  /-- `created` tick, `uint64` in Go.  Modelled from the spec: `item.go` of
  the current revision is missing; spec §3 "created_tick: tick assigned at
  insert; never updated while the item lives". -/
  created : Nat
  /-- `hits` counter, `uint64` in Go.  Modelled from the spec: `item.go` of
  the current revision is missing; spec §3 "hits: 64-bit counter
  incremented atomically on each observed read hit". -/
  hits : Nat
  deriving Repr, DecidableEq

/-- `newItem` (item.go): a fresh item has zeroed access metadata. -/
def newItem {V : Type} (id : Nat) (key : String) (value : V) (expires weight : Int) :
    Item V :=
  { id := id, key := key, value := value, expires := expires, weight := weight,
    lastAccess := 0, created := 0, hits := 0 }

/-- `Item.Expired` (item.go): `expires < time.Now().UnixNano()`. -/
def Item.ExpiredAt {V : Type} (i : Item V) (now : Int) : Bool :=
  i.expires < now

/-- `Item.TTL` (item.go): `expires - time.Now().UnixNano()` as a duration. -/
def Item.ttlAt {V : Type} (i : Item V) (now : Int) : Int :=
  i.expires - now

/-- `Item.Extend` (item.go): store `now + duration` into `expires`. -/
def Item.extend {V : Type} (i : Item V) (duration now : Int) : Item V :=
  { i with expires := now + duration }

/-- `Item.touch` (item.go): store `tick` into `lastAccess`. -/
def Item.touch {V : Type} (i : Item V) (tick : Nat) : Item V :=
  { i with lastAccess := tick }

/-- Modelled from the spec: `item.go` of the current revision (defining
`recordHit`) is missing from the sources.  Spec §4.3 Get calls
"touch(next_tick)" whose effect per §4.2 is an atomic store of the tick
into `last_access_tick` and an atomic increment of `hits`. -/
def Item.recordHit {V : Type} (i : Item V) (tick : Nat) : Item V :=
  { i with lastAccess := tick, hits := i.hits + 1 }

/-- Modelled from the spec: `item.go` of the current revision (defining
`setCreatedTick`) is missing from the sources.  Spec §4.3 Set: "allocate a
fresh tick and assign it to both `created_tick` and `last_access_tick`". -/
def Item.setCreatedTick {V : Type} (i : Item V) (tick : Nat) : Item V :=
  { i with created := tick }

/-! ## Shards (`shard.go`) -/

/-- A shard (`shard.go`): the primary map `store`, the dense sampling
vector `items` and the index map `pos`.  Go maps are embedded as
duplicate-free association lists. -/
structure Shard (V : Type) where
  store : List (String × Item V)
  items : List (Item V)
  pos : List (String × Nat)
  deriving Repr, DecidableEq

variable {V : Type}

/-- `newShard` (shard.go). -/
def newShard (V : Type) : Shard V :=
  { store := [], items := [], pos := [] }

/-- `shard.itemCount` (shard.go): `len(s.store)`. -/
def Shard.itemCount (s : Shard V) : Nat := s.store.length

/-- `shard.get` (shard.go): `s.store[key]`. -/
def Shard.get (s : Shard V) (key : String) : Option (Item V) :=
  alookup key s.store

/-- `shard.set` (shard.go): insert-or-replace; on insert append to `items`
and record the index in `pos`, on replace overwrite `items` in place. -/
def Shard.set (s : Shard V) (key : String) (item : Item V) :
    Option (Item V) × Shard V :=
  let old := alookup key s.store
  let store' := aupdate key item s.store
  match old with
  | none =>
      (none, { store := store',
               items := s.items ++ [item],
               pos := aupdate key s.items.length s.pos })
  | some _ =>
      let idx := (alookup key s.pos).getD 0
      (old, { store := store', items := s.items.set idx item, pos := s.pos })

/-- The swap-remove shared by `shard.delete` and `shard.deleteIfSame`
(shard.go): move the last element of `items` into the vacated slot,
update `pos` for the moved element, then shorten `items` and drop the
key from `store` and `pos`. -/
def Shard.removeStored (s : Shard V) (key : String) (old : Item V) : Shard V :=
  let store' := aerase key s.store
  let idx := (alookup key s.pos).getD 0
  let lastIdx := s.items.length - 1
  if idx ≠ lastIdx then
    let moved := (s.items.get? lastIdx).getD old
    let items' := (s.items.set idx moved).take lastIdx
    let pos' := aerase key (aupdate moved.key idx s.pos)
    { store := store', items := items', pos := pos' }
  else
    { store := store', items := s.items.take lastIdx, pos := aerase key s.pos }

/-- `shard.delete` (shard.go). -/
def Shard.delete (s : Shard V) (key : String) : Option (Item V) × Shard V :=
  match alookup key s.store with
  | none => (none, s)
  | some old => (some old, s.removeStored key old)

/-- `shard.deleteIfSame` (shard.go): compare-and-remove.  Go compares the
stored pointer with `expected`; with globally unique allocation ids this
is value equality of the records. -/
def Shard.deleteIfSame [DecidableEq V] (s : Shard V) (key : String)
    (expected : Item V) : Bool × Shard V :=
  match alookup key s.store with
  | none => (false, s)
  | some current =>
      if current = expected then (true, s.removeStored key current)
      else (false, s)

/-- `shard.sampleNth` (shard.go): `items[n % len(items)]`, none if empty. -/
def Shard.sampleNth (s : Shard V) (n : Nat) : Option (Item V) :=
  if s.items.length = 0 then none
  else s.items.get? (n % s.items.length)

/-- `shard.clear` (shard.go). -/
def Shard.clear (_s : Shard V) : Shard V :=
  { store := [], items := [], pos := [] }

/-- In-place mutation of the item stored under `key`, reached through the
shared reference: in Go a single store to a field of `*Item` is visible
through both `store[key]` and `items[pos[key]]`; in the value embedding
both views are rewritten. -/
def Shard.updateItem (s : Shard V) (key : String) (f : Item V → Item V) : Shard V :=
  match alookup key s.store with
  | none => s
  | some it =>
      let idx := (alookup key s.pos).getD 0
      { store := aupdate key (f it) s.store,
        items := s.items.set idx (f it),
        pos := s.pos }

/-! ## Shard coherence (claim C2) -/

/-- Coherence of a shard: duplicate-free key lists, equal cardinalities,
and for every position `i` the item stored in the dense vector is exactly
the `store` binding of its key, with `pos` recording `i`. -/
def Coherent (s : Shard V) : Prop :=
  (akeys s.store).Nodup ∧ (akeys s.pos).Nodup ∧
  s.store.length = s.items.length ∧ s.pos.length = s.items.length ∧
  (∀ i (h : i < s.items.length),
      alookup (s.items.get ⟨i, h⟩).key s.store = some (s.items.get ⟨i, h⟩) ∧
      alookup (s.items.get ⟨i, h⟩).key s.pos = some i)

instance (s : Shard V) [DecidableEq V] : Decidable (Coherent s) := by
  unfold Coherent
  infer_instance

theorem coherent_key_inj (hc : Coherent s) {i j : Nat}
    (hi : i < s.items.length) (hj : j < s.items.length)
    (h : (s.items.get ⟨i, hi⟩).key = (s.items.get ⟨j, hj⟩).key) : i = j := by
  have h1 := ((hc.2.2.2.2 i hi).2)
  have h2 := ((hc.2.2.2.2 j hj).2)
  rw [h] at h1
  rw [h1] at h2
  exact Option.some.inj h2

theorem coherent_keys_perm (hc : Coherent s) :
    (s.items.map Item.key).Perm (akeys s.store) := by
  have hnd : (s.items.map Item.key).Nodup := by
    rw [List.nodup_iff_injective_get]
    intro a b hab
    simp only [List.get_map] at hab
    have := coherent_key_inj hc (by simpa using a.2) (by simpa using b.2) hab
    exact Fin.ext this
  have hsub : (s.items.map Item.key) ⊆ akeys s.store := by
    intro a ha
    rcases List.mem_map.mp ha with ⟨it, hit, rfl⟩
    rcases List.mem_iff_get.mp hit with ⟨i, rfl⟩
    exact mem_akeys_of_alookup (hc.2.2.2.2 i.1 i.2).1
  have hlen : (akeys s.store).length ≤ (s.items.map Item.key).length := by
    simp [akeys, hc.2.2.1]
  exact (List.subperm_of_subset hnd hsub).perm_of_length_le hlen

/-- Characterization of `store` bindings in a coherent shard: every
binding is the graph of some slot of the dense vector. -/
theorem coherent_store_char (hc : Coherent s) {k : String} {it : Item V}
    (h : alookup k s.store = some it) :
    ∃ (i : Nat) (hi : i < s.items.length),
      s.items.get ⟨i, hi⟩ = it ∧ it.key = k ∧ alookup k s.pos = some i := by
  have hk : k ∈ akeys s.store := mem_akeys_of_alookup h
  have hk' : k ∈ s.items.map Item.key := (coherent_keys_perm hc).mem_iff.mpr hk
  rcases List.mem_map.mp hk' with ⟨it', hit', hkey⟩
  rcases List.mem_iff_get.mp hit' with ⟨i, rfl⟩
  have hstore := (hc.2.2.2.2 i.1 i.2).1
  have hpos := (hc.2.2.2.2 i.1 i.2).2
  rw [show s.items.get ⟨i.1, i.2⟩ = s.items.get i from rfl, hkey] at hstore hpos
  rw [h] at hstore
  have hit2 : it = s.items.get i := Option.some.inj hstore
  refine ⟨i.1, i.2, ?_, ?_, hpos⟩
  · exact hit2.symm
  · rw [hit2]
    exact hkey

theorem coherent_keys_perm_pos (hc : Coherent s) :
    (s.items.map Item.key).Perm (akeys s.pos) := by
  have hnd : (s.items.map Item.key).Nodup := by
    rw [List.nodup_iff_injective_get]
    intro a b hab
    simp only [List.get_map] at hab
    exact Fin.ext (coherent_key_inj hc (by simpa using a.2) (by simpa using b.2) hab)
  have hsub : (s.items.map Item.key) ⊆ akeys s.pos := by
    intro a ha
    rcases List.mem_map.mp ha with ⟨it, hit, rfl⟩
    rcases List.mem_iff_get.mp hit with ⟨j, rfl⟩
    exact mem_akeys_of_alookup (hc.2.2.2.2 j.1 j.2).2
  have hlen : (akeys s.pos).length ≤ (s.items.map Item.key).length := by
    simp [akeys, hc.2.2.2.1]
  exact (List.subperm_of_subset hnd hsub).perm_of_length_le hlen

/-- Characterization of `pos` bindings in a coherent shard. -/
theorem coherent_pos_char (hc : Coherent s) {k : String} {i : Nat}
    (h : alookup k s.pos = some i) :
    ∃ hi : i < s.items.length,
      (s.items.get ⟨i, hi⟩).key = k ∧
      alookup k s.store = some (s.items.get ⟨i, hi⟩) := by
  have hperm : (s.items.map Item.key).Perm (akeys s.pos) := by
    have hnd : (s.items.map Item.key).Nodup := by
      rw [List.nodup_iff_injective_get]
      intro a b hab
      simp only [List.get_map] at hab
      exact Fin.ext (coherent_key_inj hc (by simpa using a.2) (by simpa using b.2) hab)
    have hsub : (s.items.map Item.key) ⊆ akeys s.pos := by
      intro a ha
      rcases List.mem_map.mp ha with ⟨it, hit, rfl⟩
      rcases List.mem_iff_get.mp hit with ⟨j, rfl⟩
      exact mem_akeys_of_alookup (hc.2.2.2.2 j.1 j.2).2
    have hlen : (akeys s.pos).length ≤ (s.items.map Item.key).length := by
      simp [akeys, hc.2.2.2.1]
    exact (List.subperm_of_subset hnd hsub).perm_of_length_le hlen
  have hk : k ∈ akeys s.pos := mem_akeys_of_alookup h
  have hk' : k ∈ s.items.map Item.key := hperm.mem_iff.mpr hk
  rcases List.mem_map.mp hk' with ⟨it', hit', hkey⟩
  rcases List.mem_iff_get.mp hit' with ⟨j, rfl⟩
  have hpos := (hc.2.2.2.2 j.1 j.2).2
  rw [show s.items.get ⟨j.1, j.2⟩ = s.items.get j from rfl, hkey] at hpos
  rw [h] at hpos
  have hji : i = j.1 := Option.some.inj hpos
  subst hji
  have hstore := (hc.2.2.2.2 j.1 j.2).1
  rw [show s.items.get ⟨j.1, j.2⟩ = s.items.get j from rfl, hkey] at hstore
  exact ⟨j.2, hkey, hstore⟩

theorem coherent_pos_absent (hc : Coherent s) {k : String}
    (h : alookup k s.store = none) : alookup k s.pos = none := by
  apply alookup_eq_none_of_not_mem_akeys
  intro hmem
  have hk' : k ∈ s.items.map Item.key := (coherent_keys_perm_pos hc).mem_iff.mpr hmem
  have hks : k ∈ akeys s.store := (coherent_keys_perm hc).mem_iff.mp hk'
  have := alookup_isSome_of_mem_akeys hks
  rw [h] at this
  simp at this

theorem aupdate_eq_append_of_absent {β : Type} {k : String} {v : β}
    {l : List (String × β)} (h : alookup k l = none) :
    aupdate k v l = l ++ [(k, v)] := by
  induction l with
  | nil => simp [aupdate]
  | cons p r ih =>
    by_cases hp : p.1 = k
    · simp [alookup, hp] at h
    · simp [aupdate, hp, ih (by simpa [alookup, hp] using h)]

theorem Shard.set_of_absent {s : Shard V} {k : String} {it : Item V}
    (h : alookup k s.store = none) :
    s.set k it = (none,
      { store := aupdate k it s.store,
        items := s.items ++ [it],
        pos := aupdate k s.items.length s.pos }) := by
  simp [Shard.set, h]

theorem Shard.set_of_present {s : Shard V} {k : String} {it old : Item V}
    (h : alookup k s.store = some old) :
    s.set k it = (some old,
      { store := aupdate k it s.store,
        items := s.items.set ((alookup k s.pos).getD 0) it,
        pos := s.pos }) := by
  simp [Shard.set, h]

/-- `shard.set` preserves coherence (called with `item.key = key`, as the
cache always does: `newItem(key, ...)`). -/
theorem coherent_set (hc : Coherent s) {k : String} {it : Item V}
    (hk : it.key = k) : Coherent (Shard.set s k it).2 := by
  cases hold : alookup k s.store with
  | none =>
    rw [Shard.set_of_absent hold]
    have hposn : alookup k s.pos = none := coherent_pos_absent hc hold
    refine ⟨nodup_akeys_aupdate_of_absent hc.1 hold,
            nodup_akeys_aupdate_of_absent hc.2.1 hposn, ?_, ?_, ?_⟩
    · simp [length_aupdate_of_absent hold, hc.2.2.1]
    · simp [length_aupdate_of_absent hposn, hc.2.2.2.1]
    · intro i h
      simp only [List.length_append, List.length_cons, List.length_nil] at h
      by_cases hi : i < s.items.length
      · have hget : (s.items ++ [it]).get ⟨i, by simp; omega⟩ = s.items.get ⟨i, hi⟩ := by
          simp [List.get_eq_getElem, List.getElem_append_left hi]
        have hcoh := hc.2.2.2.2 i hi
        have hne : (s.items.get ⟨i, hi⟩).key ≠ k := by
          intro he
          rw [he] at hcoh
          rw [hold] at hcoh
          exact Option.noConfusion hcoh.1
        constructor
        · show alookup ((s.items ++ [it]).get ⟨i, _⟩).key (aupdate k it s.store) = _
          rw [hget, alookup_aupdate_ne hne]
          exact hcoh.1
        · show alookup ((s.items ++ [it]).get ⟨i, _⟩).key
            (aupdate k s.items.length s.pos) = some i
          rw [hget, alookup_aupdate_ne hne]
          exact hcoh.2
      · have hieq : i = s.items.length := by omega
        subst hieq
        have hget : (s.items ++ [it]).get ⟨s.items.length, by simp⟩ = it := by
          simp [List.get_eq_getElem]
        constructor
        · show alookup ((s.items ++ [it]).get ⟨s.items.length, _⟩).key
            (aupdate k it s.store) = _
          rw [hget, hk, alookup_aupdate_self]
        · show alookup ((s.items ++ [it]).get ⟨s.items.length, _⟩).key
            (aupdate k s.items.length s.pos) = some s.items.length
          rw [hget, hk, alookup_aupdate_self]
  | some old =>
    rw [Shard.set_of_present hold]
    obtain ⟨j, hj, hjit, hjkey, hjpos⟩ := coherent_store_char hc hold
    have hidx : (alookup k s.pos).getD 0 = j := by rw [hjpos]; rfl
    rw [hidx]
    have hsome : (alookup k s.store).isSome := by simp [hold]
    refine ⟨nodup_akeys_aupdate_of_present hc.1 hsome, hc.2.1, ?_, ?_, ?_⟩
    · simp [length_aupdate_of_present hsome, hc.2.2.1]
    · simpa using hc.2.2.2.1
    · intro i h
      simp only [List.length_set] at h
      by_cases hij : i = j
      · subst hij
        have hget : (s.items.set i it).get ⟨i, by simpa using h⟩ = it := by
          simp [List.get_eq_getElem, List.getElem_set_eq]
        constructor
        · show alookup ((s.items.set i it).get ⟨i, _⟩).key (aupdate k it s.store) = _
          rw [hget, hk, alookup_aupdate_self]
        · show alookup ((s.items.set i it).get ⟨i, _⟩).key s.pos = some i
          rw [hget, hk]
          exact hjpos
      · have hget : (s.items.set j it).get ⟨i, by simpa using h⟩ = s.items.get ⟨i, h⟩ := by
          simp [List.get_eq_getElem, List.getElem_set_ne (Ne.symm hij)]
        have hcoh := hc.2.2.2.2 i h
        have hne : (s.items.get ⟨i, h⟩).key ≠ k := by
          intro he
          apply hij
          exact coherent_key_inj hc h hj (by rw [he, hjit, hjkey])
        constructor
        · show alookup ((s.items.set j it).get ⟨i, _⟩).key (aupdate k it s.store) = _
          rw [hget, alookup_aupdate_ne hne]
          exact hcoh.1
        · show alookup ((s.items.set j it).get ⟨i, _⟩).key s.pos = some i
          rw [hget]
          exact hcoh.2

theorem Shard.removeStored_last {s : Shard V} {k : String} {old : Item V} {j : Nat}
    (hidx : (alookup k s.pos).getD 0 = j) (heq : j = s.items.length - 1) :
    s.removeStored k old =
      { store := aerase k s.store,
        items := s.items.take (s.items.length - 1),
        pos := aerase k s.pos } := by
  simp [Shard.removeStored, hidx, heq]

theorem Shard.removeStored_move {s : Shard V} {k : String} {old : Item V} {j : Nat}
    (hidx : (alookup k s.pos).getD 0 = j) (hne : j ≠ s.items.length - 1) :
    s.removeStored k old =
      { store := aerase k s.store,
        items := (s.items.set j ((s.items.get? (s.items.length - 1)).getD old)).take
          (s.items.length - 1),
        pos := aerase k
          (aupdate ((s.items.get? (s.items.length - 1)).getD old).key j s.pos) } := by
  simp [Shard.removeStored, hidx, hne]

/-- The swap-remove of `shard.delete`/`shard.deleteIfSame` preserves
coherence when applied to a present key. -/
theorem coherent_removeStored (hc : Coherent s) {k : String} {old : Item V}
    (h : alookup k s.store = some old) : Coherent (s.removeStored k old) := by
  obtain ⟨j, hj, hjit, hjkey, hjpos⟩ := coherent_store_char hc h
  have hidx : (alookup k s.pos).getD 0 = j := by rw [hjpos]; rfl
  have hn : 1 ≤ s.items.length := by omega
  have hjkey' : (s.items.get ⟨j, hj⟩).key = k := by rw [hjit]; exact hjkey
  have hsomeS : (alookup k s.store).isSome := by simp [h]
  have hsomeP : (alookup k s.pos).isSome := by simp [hjpos]
  by_cases hcase : j = s.items.length - 1
  · rw [Shard.removeStored_last hidx hcase]
    refine ⟨nodup_akeys_aerase hc.1, nodup_akeys_aerase hc.2.1, ?_, ?_, ?_⟩
    · rw [length_aerase_of_present hc.1 hsomeS, hc.2.2.1]
      simp [List.length_take]
    · rw [length_aerase_of_present hc.2.1 hsomeP, hc.2.2.2.1]
      simp [List.length_take]
    · intro i hi
      have hi' : i < s.items.length - 1 := by
        have h2 := hi
        simp only [List.length_take, lt_min_iff] at h2
        exact h2.1
      have hilt : i < s.items.length := by omega
      have hget : (s.items.take (s.items.length - 1)).get ⟨i, hi⟩ =
          s.items.get ⟨i, hilt⟩ := by
        simp [List.get_eq_getElem, List.getElem_take]
      have hcoh := hc.2.2.2.2 i hilt
      have hne : (s.items.get ⟨i, hilt⟩).key ≠ k := by
        intro he
        have := coherent_key_inj hc hilt hj (by rw [he, hjkey'])
        omega
      rw [hget]
      exact ⟨by rw [alookup_aerase_ne hne]; exact hcoh.1,
             by rw [alookup_aerase_ne hne]; exact hcoh.2⟩
  · rw [Shard.removeStored_move hidx hcase]
    have hlast : s.items.length - 1 < s.items.length := by omega
    have hjlt : j < s.items.length - 1 := by omega
    have hmoved : (s.items.get? (s.items.length - 1)).getD old =
        s.items.get ⟨s.items.length - 1, hlast⟩ := by
      rw [List.get?_eq_get hlast]
      rfl
    have hmcoh := hc.2.2.2.2 (s.items.length - 1) hlast
    have hmkey_ne : (s.items.get ⟨s.items.length - 1, hlast⟩).key ≠ k := by
      intro he
      have := coherent_key_inj hc hlast hj (by rw [he, hjkey'])
      omega
    have hposup : (alookup k (aupdate (s.items.get ⟨s.items.length - 1, hlast⟩).key j
        s.pos)).isSome := by
      rw [alookup_aupdate_ne (Ne.symm hmkey_ne)]
      exact hsomeP
    rw [hmoved]
    refine ⟨nodup_akeys_aerase hc.1,
            nodup_akeys_aerase (nodup_akeys_aupdate_of_present hc.2.1
              (by rw [hmcoh.2]; rfl)), ?_, ?_, ?_⟩
    · rw [length_aerase_of_present hc.1 hsomeS, hc.2.2.1]
      simp [List.length_take]
    · rw [length_aerase_of_present
        (nodup_akeys_aupdate_of_present hc.2.1 (by rw [hmcoh.2]; rfl)) hposup,
        length_aupdate_of_present (by rw [hmcoh.2]; rfl), hc.2.2.2.1]
      simp [List.length_take]
    · intro i hi
      have hi' : i < s.items.length - 1 := by
        have h2 := hi
        simp only [List.length_take, List.length_set, lt_min_iff] at h2
        exact h2.1
      have hilt : i < s.items.length := by omega
      by_cases hij : i = j
      · subst hij
        have hget : ((s.items.set i (s.items.get ⟨s.items.length - 1, hlast⟩)).take
            (s.items.length - 1)).get ⟨i, hi⟩ =
            s.items.get ⟨s.items.length - 1, hlast⟩ := by
          simp [List.get_eq_getElem, List.getElem_take, List.getElem_set_eq]
        rw [hget]
        constructor
        · rw [alookup_aerase_ne hmkey_ne]
          exact hmcoh.1
        · rw [alookup_aerase_ne hmkey_ne, alookup_aupdate_self]
      · have hget : ((s.items.set j (s.items.get ⟨s.items.length - 1, hlast⟩)).take
            (s.items.length - 1)).get ⟨i, hi⟩ = s.items.get ⟨i, hilt⟩ := by
          simp [List.get_eq_getElem, List.getElem_take,
            List.getElem_set_ne (Ne.symm hij)]
        have hcoh := hc.2.2.2.2 i hilt
        have hne : (s.items.get ⟨i, hilt⟩).key ≠ k := by
          intro he
          exact hij (coherent_key_inj hc hilt hj (by rw [he, hjkey']))
        have hnem : (s.items.get ⟨i, hilt⟩).key ≠
            (s.items.get ⟨s.items.length - 1, hlast⟩).key := by
          intro he
          have := coherent_key_inj hc hilt hlast he
          omega
        rw [hget]
        constructor
        · rw [alookup_aerase_ne hne]
          exact hcoh.1
        · rw [alookup_aerase_ne hne, alookup_aupdate_ne hnem]
          exact hcoh.2

theorem coherent_newShard : Coherent (newShard V) := by
  refine ⟨by simp [newShard, akeys], by simp [newShard, akeys],
    by simp [newShard], by simp [newShard], ?_⟩
  intro i h
  simp [newShard] at h

theorem coherent_clear (s : Shard V) : Coherent s.clear := by
  refine ⟨by simp [Shard.clear, akeys], by simp [Shard.clear, akeys],
    by simp [Shard.clear], by simp [Shard.clear], ?_⟩
  intro i h
  simp [Shard.clear] at h

theorem coherent_delete (hc : Coherent s) (k : String) :
    Coherent (Shard.delete s k).2 := by
  cases hold : alookup k s.store with
  | none => simpa [Shard.delete, hold] using hc
  | some old =>
    have := coherent_removeStored hc hold
    simpa [Shard.delete, hold] using this

theorem coherent_deleteIfSame [DecidableEq V] (hc : Coherent s) (k : String)
    (expected : Item V) : Coherent (Shard.deleteIfSame s k expected).2 := by
  cases hold : alookup k s.store with
  | none => simpa [Shard.deleteIfSame, hold] using hc
  | some current =>
    by_cases he : current = expected
    · have := coherent_removeStored hc hold
      simpa [Shard.deleteIfSame, hold, he] using this
    · simpa [Shard.deleteIfSame, hold, he] using hc

theorem coherent_updateItem (hc : Coherent s) (k : String) (f : Item V → Item V)
    (hf : ∀ it : Item V, (f it).key = it.key) :
    Coherent (Shard.updateItem s k f) := by
  cases hold : alookup k s.store with
  | none => simpa [Shard.updateItem, hold] using hc
  | some it =>
    obtain ⟨j, hj, hjit, hjkey, hjpos⟩ := coherent_store_char hc hold
    have hidx : (alookup k s.pos).getD 0 = j := by rw [hjpos]; rfl
    have hsome : (alookup k s.store).isSome := by simp [hold]
    rw [Shard.updateItem, hold]
    simp only [hidx]
    refine ⟨nodup_akeys_aupdate_of_present hc.1 hsome, hc.2.1, ?_, ?_, ?_⟩
    · simp [length_aupdate_of_present hsome, hc.2.2.1]
    · simpa using hc.2.2.2.1
    · intro i h
      have hby : i < s.items.length := by simpa using h
      by_cases hij : i = j
      · subst hij
        have hget : (s.items.set i (f it)).get ⟨i, h⟩ = f it := by
          simp [List.get_eq_getElem, List.getElem_set_eq]
        have hkeyf : (f it).key = k := by rw [hf, ← hjit, ← hjkey, hjit]
        constructor
        · show alookup ((s.items.set i (f it)).get ⟨i, h⟩).key
            (aupdate k (f it) s.store) = _
          rw [hget, hkeyf, alookup_aupdate_self]
        · show alookup ((s.items.set i (f it)).get ⟨i, h⟩).key s.pos = some i
          rw [hget, hkeyf]
          exact hjpos
      · have hget : (s.items.set j (f it)).get ⟨i, h⟩ = s.items.get ⟨i, hby⟩ := by
          simp [List.get_eq_getElem, List.getElem_set_ne (Ne.symm hij)]
        have hcoh := hc.2.2.2.2 i hby
        have hne : (s.items.get ⟨i, hby⟩).key ≠ k := by
          intro he
          exact hij (coherent_key_inj hc hby hj
            (by rw [he, hjit, hjkey]))
        constructor
        · show alookup ((s.items.set j (f it)).get ⟨i, h⟩).key
            (aupdate k (f it) s.store) = _
          rw [hget, alookup_aupdate_ne hne]
          exact hcoh.1
        · show alookup ((s.items.set j (f it)).get ⟨i, h⟩).key s.pos = some i
          rw [hget]
          exact hcoh.2

/-- The swap-remove behaviour of `shard.delete` on a present key whose
slot is not the last: the last element of `items` moves into the vacated
slot and `pos` records the moved key's new index, while `items` shrinks
by one. -/
theorem delete_swaps_last (hc : Coherent s) {k : String} {old : Item V} {i : Nat}
    (hst : alookup k s.store = some old) (hpo : alookup k s.pos = some i)
    (hne : i ≠ s.items.length - 1) :
    ∃ moved : Item V,
      s.items.get? (s.items.length - 1) = some moved ∧
      (Shard.delete s k).2.items.get? i = some moved ∧
      alookup moved.key (Shard.delete s k).2.pos = some i ∧
      (Shard.delete s k).2.items.length = s.items.length - 1 := by
  obtain ⟨j, hj, hjit, hjkey, hjpos⟩ := coherent_store_char hc hst
  have hij : i = j := by
    rw [hjpos] at hpo
    exact (Option.some.inj hpo).symm
  subst hij
  have hidx : (alookup k s.pos).getD 0 = i := by rw [hjpos]; rfl
  have hlast : s.items.length - 1 < s.items.length := by omega
  have hilt : i < s.items.length - 1 := by omega
  have hmoved : (s.items.get? (s.items.length - 1)).getD old =
      s.items.get ⟨s.items.length - 1, hlast⟩ := by
    rw [List.get?_eq_get hlast]
    rfl
  have hmkey_ne : (s.items.get ⟨s.items.length - 1, hlast⟩).key ≠ k := by
    intro he
    have := coherent_key_inj hc hlast hj (by rw [he, hjit, hjkey])
    omega
  refine ⟨s.items.get ⟨s.items.length - 1, hlast⟩, by rw [List.get?_eq_get hlast], ?_, ?_, ?_⟩
  · rw [Shard.delete, hst]
    simp only
    rw [Shard.removeStored_move hidx hne, hmoved]
    simp only
    rw [List.get?_eq_getElem?, List.getElem?_take_of_lt hilt]
    rw [List.getElem?_set_eq (by omega)]
  · rw [Shard.delete, hst]
    simp only
    rw [Shard.removeStored_move hidx hne, hmoved]
    simp only
    rw [alookup_aerase_ne hmkey_ne, alookup_aupdate_self]
  · rw [Shard.delete, hst]
    simp only
    rw [Shard.removeStored_move hidx hne]
    simp only [List.length_take, List.length_set]
    omega

/-- C2: Every shard operation (set, delete, deleteIfSame, clear, starting
from a freshly constructed shard) preserves the coherence invariant:
`len(store) = len(items) = len(pos)`, and for every key in `store`, `pos`
holds a valid index into `items` at which the very item bound in `store`
sits; `delete` of a present key swap-removes by moving the last element of
`items` into the vacated slot and updating `pos` for the moved element
before shortening `items`.  (`set` is stated under its call-site contract
`item.key = key`, which `Cache.Set` always establishes via `newItem`.) -/
theorem shard_ops_preserve_coherence :
    (∀ V : Type, Coherent (newShard V)) ∧
    (∀ (V : Type) (s : Shard V) (k : String) (it : Item V),
      Coherent s → it.key = k → Coherent (Shard.set s k it).2) ∧
    (∀ (V : Type) (s : Shard V) (k : String),
      Coherent s → Coherent (Shard.delete s k).2) ∧
    (∀ (V : Type) (inst : DecidableEq V) (s : Shard V) (k : String) (e : Item V),
      Coherent s → Coherent (Shard.deleteIfSame s k e).2) ∧
    (∀ (V : Type) (s : Shard V), Coherent (Shard.clear s)) ∧
    (∀ (V : Type) (s : Shard V), Coherent s →
      s.store.length = s.items.length ∧ s.pos.length = s.items.length ∧
      ∀ p ∈ s.store, ∃ i, alookup p.1 s.pos = some i ∧
        ∃ hi : i < s.items.length, s.items.get ⟨i, hi⟩ = p.2) ∧
    (∀ (V : Type) (s : Shard V) (k : String) (old : Item V) (i : Nat),
      Coherent s → alookup k s.store = some old → alookup k s.pos = some i →
      i ≠ s.items.length - 1 →
      ∃ moved, s.items.get? (s.items.length - 1) = some moved ∧
        (Shard.delete s k).2.items.get? i = some moved ∧
        alookup moved.key (Shard.delete s k).2.pos = some i ∧
        (Shard.delete s k).2.items.length = s.items.length - 1) := by
  refine ⟨fun V => coherent_newShard,
          fun V s k it hc hk => coherent_set hc hk,
          fun V s k hc => coherent_delete hc k,
          fun V inst s k e hc => coherent_deleteIfSame hc k e,
          fun V s => coherent_clear s,
          ?_,
          fun V s k old i hc h1 h2 h3 => delete_swaps_last hc h1 h2 h3⟩
  intro V s hc
  refine ⟨hc.2.2.1, hc.2.2.2.1, ?_⟩
  intro p hp
  have hlk : alookup p.1 s.store = some p.2 := alookup_of_mem_nodup hc.1 hp
  obtain ⟨i, hi, hit, _, hpos⟩ := coherent_store_char hc hlk
  exact ⟨i, hpos, hi, hit⟩

/-! ## Configuration (`config.go`) -/

/-- `SampledLru` (config.go): `EvictionPolicy` is a Go `uint8`; the
constants are 0 and 1. -/
def SampledLru : Nat := 0

/-- `SampledLhd` (config.go). -/
def SampledLhd : Nat := 1

/-- `TreatExpiredAsMiss` (config.go): `ExpirationPolicy` constant 0. -/
def TreatExpiredAsMiss : Nat := 0

/-- `ReturnExpired` (config.go): `ExpirationPolicy` constant 1. -/
def ReturnExpired : Nat := 1

/-- `Config` (config.go).  The Go `int` fields become `Int`; the `uint8`
policy fields become `Nat`.  The optional `Weigher` function field is kept
out of the record (functions have no decidable equality); the resolved
weigher is passed to the operations explicitly, exactly as `Cache.weigher`
is resolved once by `New`. -/
structure Config where
  shards : Int
  maxWeight : Int
  itemsToPrune : Int
  sampleSize : Int
  evictionPolicy : Nat
  expirationPolicy : Nat
  deriving Repr, DecidableEq

/-- `NewConfig` (config.go). -/
def NewConfig : Config :=
  { shards := 16, maxWeight := 5000, itemsToPrune := 500, sampleSize := 32,
    evictionPolicy := SampledLru, expirationPolicy := TreatExpiredAsMiss }

/-- `Config.Build` (config.go): validate/normalize. -/
def Config.build (c : Config) : Config :=
  { shards :=
      if c.shards = 0 ∨ Int.land c.shards (c.shards - 1) ≠ 0 then 16 else c.shards,
    maxWeight := if c.maxWeight ≤ 0 then 5000 else c.maxWeight,
    itemsToPrune := if c.itemsToPrune ≤ 0 then 500 else c.itemsToPrune,
    sampleSize := if c.sampleSize ≤ 0 then 32 else c.sampleSize,
    evictionPolicy :=
      if c.evictionPolicy ≠ SampledLru ∧ c.evictionPolicy ≠ SampledLhd then
        SampledLru else c.evictionPolicy,
    expirationPolicy :=
      if c.expirationPolicy ≠ TreatExpiredAsMiss ∧ c.expirationPolicy ≠ ReturnExpired
      then TreatExpiredAsMiss else c.expirationPolicy }

/-! ## Key routing (`cache.go`: `getShard`, FNV-1a) -/

/-- UTF-8 encoding of a character sequence, byte values as `Nat`; embeds
the byte view `[]byte(key)` of a Go string. -/
def utf8Bytes : List Char → List Nat
  | [] => []
  | ch :: cs =>
      let n := ch.toNat
      (if n < 128 then [n]
       else if n < 2048 then [192 ||| (n >>> 6), 128 ||| (n &&& 63)]
       else if n < 65536 then
         [224 ||| (n >>> 12), 128 ||| ((n >>> 6) &&& 63), 128 ||| (n &&& 63)]
       else
         [240 ||| (n >>> 18), 128 ||| ((n >>> 12) &&& 63),
          128 ||| ((n >>> 6) &&& 63), 128 ||| (n &&& 63)]) ++ utf8Bytes cs

/-- One FNV-1a step (`hash/fnv` 32-bit): xor then multiply, mod `2^32`. -/
def fnv32Step (h b : Nat) : Nat := ((h ^^^ b) * 16777619) % 4294967296

/-- 32-bit FNV-1a digest of the UTF-8 bytes of a key (`hash/fnv`). -/
def fnv32 (key : String) : Nat :=
  (utf8Bytes key.data).foldl fnv32Step 2166136261

/-! ## The cache (`cache.go`) -/

/-- `Cache` (cache.go).  `accessClock` and `size` are the two cache-wide
atomics.  `nextId` is the model's allocation counter providing the pointer
identity of freshly allocated items.  `rng` is the stream of values the
process-local PRNG will hand out, consumed head first (a raw draw `r` for
`rand.IntN(n)` yields `r % n`). -/
structure Cache (V : Type) where
  cfg : Config
  shards : List (Shard V)
  accessClock : Nat
  size : Int
  nextId : Nat
  rng : List Nat
  deriving Repr, DecidableEq

/-- `New` (cache.go): build the config, guard the shard count, allocate
the shard array.  `shardMask` is `shards - 1`; it is recomputed from
`shards.length` where needed. -/
def Cache.new (V : Type) (config : Config) (rng : List Nat) : Cache V :=
  let cfg := config.build
  let shardCount := if cfg.shards < 1 ∨ 4294967295 < cfg.shards then 16 else cfg.shards
  { cfg := cfg,
    shards := List.replicate shardCount.toNat (newShard V),
    accessClock := 0, size := 0, nextId := 0, rng := rng }

/-- Shard access `c.shards[i]` (total, via a default; all uses are in
range). -/
def Cache.shardAt (c : Cache V) (i : Nat) : Shard V :=
  (c.shards.get? i).getD (newShard V)

/-- Write back one shard. -/
def Cache.setShard (c : Cache V) (i : Nat) (s : Shard V) : Cache V :=
  { c with shards := c.shards.set i s }

/-- `getShard` (cache.go): `h.Sum32() & c.shardMask`. -/
def Cache.shardIdx (c : Cache V) (key : String) : Nat :=
  Nat.land (fnv32 key) (c.shards.length - 1)

/-- `nextTick` (cache.go): `atomic.AddUint64(&c.accessClock, 1)` returns
the incremented value. -/
def Cache.nextTick (c : Cache V) : Nat × Cache V :=
  (c.accessClock + 1, { c with accessClock := c.accessClock + 1 })

/-- One draw from the PRNG oracle stream. -/
def Cache.rngNext (c : Cache V) : Nat × Cache V :=
  match c.rng with
  | [] => (0, c)
  | n :: r => (n, { c with rng := r })

/-- `ItemCount` (cache.go): sum of per-shard `itemCount`. -/
def Cache.itemCount (c : Cache V) : Nat :=
  (c.shards.map Shard.itemCount).sum

/-- `Len` (cache.go): alias for `ItemCount`. -/
def Cache.len (c : Cache V) : Nat := c.itemCount

/-- `IsEmpty` (cache.go): `c.Len() == 0`. -/
def Cache.isEmpty (c : Cache V) : Bool := c.len = 0

/-- `peekRaw` (cache.go): shard lookup, no policy, no touch. -/
def Cache.peekRaw (c : Cache V) (key : String) : Option (Item V) :=
  (c.shardAt (c.shardIdx key)).get key

/-- `Get` (cache.go): shard lookup, expiration policy, then
`recordHit(nextTick)` through the shared item reference. -/
def Cache.get (c : Cache V) (key : String) (now : Int) : Option (Item V) × Cache V :=
  let i := c.shardIdx key
  match (c.shardAt i).get key with
  | none => (none, c)
  | some item =>
      if c.cfg.expirationPolicy = TreatExpiredAsMiss ∧ item.ExpiredAt now then
        (none, c)
      else
        let tc := c.nextTick
        (some (item.recordHit tc.1),
         tc.2.setShard i ((tc.2.shardAt i).updateItem key (fun it => it.recordHit tc.1)))

/-- `Peek` (cache.go): like `Get` but never touches access metadata. -/
def Cache.peek (c : Cache V) (key : String) (now : Int) : Option (Item V) × Cache V :=
  match (c.shardAt (c.shardIdx key)).get key with
  | none => (none, c)
  | some item =>
      if c.cfg.expirationPolicy = TreatExpiredAsMiss ∧ item.ExpiredAt now then
        (none, c)
      else (some item, c)

/-! ## Eviction (`cache.go`) -/

/-- `lhdStats` (cache.go): saturating age, clamped weight, `uint64`
denominator (the multiplication `age * weight` wraps modulo `2^64`). -/
def lhdStats (item : Item V) (nowTick : Nat) : Nat × Nat :=
  let created := item.created
  let age0 := if created < nowTick then nowTick - created else 0
  let age := max age0 1
  let weight0 : Nat := if 0 < item.weight then item.weight.toNat else 0
  let weight := max weight0 1
  let d0 := (age * weight) % 18446744073709551616
  let d := max d0 1
  (item.hits, d)

/-- `lhdIsBetterCandidate` (cache.go): cross-multiplied density comparison
via `bits.Mul64` (exact 128-bit halves), then the weight and recency
tie-breaks. -/
def lhdIsBetterCandidate (candidate current : Item V) (nowTick : Nat) : Bool :=
  let cand := lhdStats candidate nowTick
  let cur := lhdStats current nowTick
  let candProd := cand.1 * cur.2
  let curProd := cur.1 * cand.2
  let candHi := candProd / 18446744073709551616
  let candLo := candProd % 18446744073709551616
  let curHi := curProd / 18446744073709551616
  let curLo := curProd % 18446744073709551616
  if candHi ≠ curHi then candHi < curHi
  else if candLo ≠ curLo then candLo < curLo
  else if candidate.weight ≠ current.weight then current.weight < candidate.weight
  else candidate.lastAccess < current.lastAccess

/-- `scanOldest` (cache.go): full scan for the smallest `lastAccess`. -/
def scanOldestFold (acc : Option (Item V) × Nat) (entries : List (String × Item V)) :
    Option (Item V) × Nat :=
  entries.foldl
    (fun acc p =>
      if acc.1.isNone ∨ p.2.lastAccess < acc.2 then (some p.2, p.2.lastAccess)
      else acc)
    acc

/-- `scanOldest` (cache.go): `bestTick` starts at `^uint64(0)`. -/
def Cache.scanOldest (c : Cache V) : Option (Item V) :=
  (c.shards.foldl (fun acc sh => scanOldestFold acc sh.store)
    (none, 18446744073709551615)).1

/-- `scanLeastHitDense` (cache.go): full scan under the LHD ranking. -/
def Cache.scanLeastHitDense (c : Cache V) : Option (Item V) :=
  let nowTick := if c.accessClock = 0 then 1 else c.accessClock
  c.shards.foldl
    (fun best sh =>
      sh.store.foldl
        (fun best p =>
          match best with
          | none => some p.2
          | some b => if lhdIsBetterCandidate p.2 b nowTick then some p.2 else some b)
        best)
    none

/-- The sampling loop of `pickSampledLru` (cache.go): `sampleSize` draws,
each drawing a shard index and a `sampleNth` argument from the PRNG. -/
def sampledLruLoop : Nat → Cache V → Option (Item V) → Nat → Option (Item V) × Cache V
  | 0, c, best, _ => (best, c)
  | fuel + 1, c, best, bestTick =>
      let d1 := c.rngNext
      let sh := d1.2.shardAt (d1.1 % d1.2.shards.length)
      let d2 := d1.2.rngNext
      match sh.sampleNth d2.1 with
      | none => sampledLruLoop fuel d2.2 best bestTick
      | some item =>
          if best.isNone ∨ item.lastAccess < bestTick then
            sampledLruLoop fuel d2.2 (some item) item.lastAccess
          else sampledLruLoop fuel d2.2 best bestTick

/-- `pickSampledLru` (cache.go). -/
def Cache.pickSampledLru (c : Cache V) : Option (Item V) × Cache V :=
  sampledLruLoop c.cfg.sampleSize.toNat c none 18446744073709551615

/-- The sampling loop of `pickSampledLhd` (cache.go). -/
def sampledLhdLoop : Nat → Cache V → Option (Item V) → Nat → Option (Item V) × Cache V
  | 0, c, best, _ => (best, c)
  | fuel + 1, c, best, nowTick =>
      let d1 := c.rngNext
      let sh := d1.2.shardAt (d1.1 % d1.2.shards.length)
      let d2 := d1.2.rngNext
      match sh.sampleNth d2.1 with
      | none => sampledLhdLoop fuel d2.2 best nowTick
      | some item =>
          match best with
          | none => sampledLhdLoop fuel d2.2 (some item) nowTick
          | some b =>
              if lhdIsBetterCandidate item b nowTick then
                sampledLhdLoop fuel d2.2 (some item) nowTick
              else sampledLhdLoop fuel d2.2 (some b) nowTick

/-- `pickSampledLhd` (cache.go): `nowTick` is the access clock clamped to
at least 1. -/
def Cache.pickSampledLhd (c : Cache V) : Option (Item V) × Cache V :=
  let nowTick := if c.accessClock = 0 then 1 else c.accessClock
  sampledLhdLoop c.cfg.sampleSize.toNat c none nowTick

/-- `pickEvictionCandidate` (cache.go): deterministic scan in the
small-cache regime, otherwise the sampled path with the scan as
fallback. -/
def Cache.pickEvictionCandidate (c : Cache V) : Option (Item V) × Cache V :=
  if (c.itemCount : Int) ≤ c.cfg.sampleSize then
    if c.cfg.evictionPolicy = SampledLhd then (c.scanLeastHitDense, c)
    else (c.scanOldest, c)
  else
    if c.cfg.evictionPolicy = SampledLhd then
      let res := c.pickSampledLhd
      match res.1 with
      | some best => (some best, res.2)
      | none => (res.2.scanLeastHitDense, res.2)
    else
      let res := c.pickSampledLru
      match res.1 with
      | some best => (some best, res.2)
      | none => (res.2.scanOldest, res.2)

/-- The body of one `evictIfNeeded` iteration after a successful pick
(cache.go): compare-and-remove the candidate, and subtract its weight
from `size` exactly on success. -/
def evictStep [DecidableEq V] (c : Cache V) (cand : Item V) : Cache V :=
  let i := c.shardIdx cand.key
  let res := (c.shardAt i).deleteIfSame cand.key cand
  let c2 := c.setShard i res.2
  if res.1 then { c2 with size := c2.size - cand.weight } else c2

/-- The loop of `evictIfNeeded` (cache.go), with explicit fuel
(`ItemsToPrune`); also returns how many full iterations (eviction
attempts) ran. -/
def evictLoop [DecidableEq V] : Nat → Cache V → Cache V × Nat
  | 0, c => (c, 0)
  | fuel + 1, c =>
      if c.size ≤ c.cfg.maxWeight then (c, 0)
      else
        let pk := c.pickEvictionCandidate
        match pk.1 with
        | none => (pk.2, 0)
        | some cand =>
            let rest := evictLoop fuel (evictStep pk.2 cand)
            (rest.1, rest.2 + 1)

/-- `evictIfNeeded` (cache.go). -/
def Cache.evictIfNeeded [DecidableEq V] (c : Cache V) : Cache V × Nat :=
  evictLoop c.cfg.itemsToPrune.toNat c

/-! ## Mutating operations (`cache.go`) -/

/-- The structural part of `Set` (cache.go): install the item in its
shard and adjust `size` (displaced weight out, new weight in). -/
def setInstall (c : Cache V) (key : String) (item : Item V) : Cache V :=
  let i := c.shardIdx key
  let res := (c.shardAt i).set key item
  let c2 := c.setShard i res.2
  let c3 := match res.1 with
    | some old => { c2 with size := c2.size - old.weight }
    | none => c2
  { c3 with size := c3.size + item.weight }

/-- `Set` (cache.go): allocate the item with fresh ticks (`created` and
`lastAccess` both get the new tick), install it, then `evictIfNeeded`.
Returns the new state and the eviction iteration count. -/
def Cache.setOp [DecidableEq V] (w : String → V → Int) (c : Cache V)
    (key : String) (value : V) (duration now : Int) : Cache V × Nat :=
  let expires := now + duration
  let weight := w key value
  let item0 := newItem c.nextId key value expires weight
  let c0 := { c with nextId := c.nextId + 1 }
  let tc := c0.nextTick
  let item := (item0.setCreatedTick tc.1).touch tc.1
  (setInstall tc.2 key item).evictIfNeeded

/-- `Delete` (cache.go). -/
def Cache.deleteOp (c : Cache V) (key : String) : Cache V :=
  let i := c.shardIdx key
  let res := (c.shardAt i).delete key
  let c1 := c.setShard i res.2
  match res.1 with
  | some it => { c1 with size := c1.size - it.weight }
  | none => c1

/-- `Replace` (cache.go): raw-peek; absent yields false, otherwise
`Set(key, value, item.TTL())`. -/
def Cache.replaceOp [DecidableEq V] (w : String → V → Int) (c : Cache V)
    (key : String) (value : V) (now : Int) : Bool × Cache V :=
  match c.peekRaw key with
  | none => (false, c)
  | some item => (true, (c.setOp w key value (item.ttlAt now) now).1)

/-- `Extend` (cache.go): raw-peek; absent yields false, otherwise
`item.Extend(duration)` and `item.touch(nextTick)` through the shared
reference. -/
def Cache.extendOp (c : Cache V) (key : String) (duration now : Int) :
    Bool × Cache V :=
  match c.peekRaw key with
  | none => (false, c)
  | some _ =>
      let tc := c.nextTick
      let i := tc.2.shardIdx key
      (true, tc.2.setShard i
        ((tc.2.shardAt i).updateItem key
          (fun it => (it.extend duration now).touch tc.1)))

/-- `Clear` (cache.go): clear every shard, store zero into `size`. -/
def Cache.clearOp (c : Cache V) : Cache V :=
  { c with shards := c.shards.map Shard.clear, size := 0 }

/-! ## Iteration (`cache.go`: `Range`, `Filter`) -/

/-- The `forEach` fold of one shard (shard.go) with a state-carrying
callback (a Go closure may capture and mutate state): delivers
`(item.key, item.value)` per entry, stops on the first false. -/
def rangeFold {σ : Type} (fn : σ → String → V → Bool × σ) :
    List (String × Item V) → σ → Bool × σ
  | [], acc => (true, acc)
  | p :: r, acc =>
      let res := fn acc p.2.key p.2.value
      if res.1 then rangeFold fn r res.2 else (false, res.2)

/-- `Range` (cache.go): iterate shards in index order, stop at the first
false. -/
def Cache.rangeOp {σ : Type} (c : Cache V) (fn : σ → String → V → Bool × σ)
    (acc : σ) : σ :=
  (c.shards.foldl
    (fun (st : Bool × σ) sh => if st.1 then rangeFold fn sh.store st.2 else st)
    (true, acc)).2

/-- The collector callback: records every delivered entry and never stops. -/
def collectEntries : List (String × V) → String → V → Bool × List (String × V) :=
  fun acc k v => (true, acc ++ [(k, v)])

/-- All `(key, value)` pairs stored across the shards, in range order. -/
def Cache.rangeEntries (c : Cache V) : List (String × V) :=
  (c.shards.map (fun sh => sh.store.map (fun p => (p.2.key, p.2.value)))).join

/-- Occurrence of `needle` as a contiguous run inside a character list;
embeds `strings.Contains`. -/
def subListAt : List Char → List Char → Bool
  | needle, [] => needle.isEmpty
  | needle, c :: rest => needle.isPrefixOf (c :: rest) || subListAt needle rest

/-- `strings.Contains(s, pattern)`. -/
def strContains (s pattern : String) : Bool :=
  subListAt pattern.data s.data

/-- The callback `Filter` passes to `Range` (cache.go): its captured
variables (the cache and the growing result) are the explicit state. -/
def filterFn (pattern : String) (now : Int) :
    Cache V × List (Item V) → String → V → Bool × (Cache V × List (Item V)) :=
  fun acc key _value =>
    if strContains key pattern then
      let res := acc.1.get key now
      match res.1 with
      | some item => (true, (res.2, acc.2 ++ [item]))
      | none => (true, (res.2, acc.2))
    else (true, acc)

/-- `Filter` (cache.go): `Range` with a callback that, for keys containing
`pattern` as a substring (`strings.Contains`), calls `Get` on the live
cache and appends non-none results. -/
def Cache.filterOp (c : Cache V) (pattern : String) (now : Int) :
    List (Item V) × Cache V :=
  let r := c.rangeOp (filterFn pattern now) (c, [])
  (r.2, r.1)

/-! ## Sequential operation sequences -/

/-- One sequential cache operation together with its external inputs (the
wall-clock reading `now`, in nanoseconds, is an input of each call). -/
inductive Op (V : Type) where
  | set (key : String) (value : V) (duration now : Int)
  | get (key : String) (now : Int)
  | peek (key : String) (now : Int)
  | del (key : String)
  | replace (key : String) (value : V) (now : Int)
  | extend (key : String) (duration now : Int)
  | clear
  | filter (pattern : String) (now : Int)

/-- Apply one operation (dropping the client-visible result). -/
def applyOp [DecidableEq V] (w : String → V → Int) (c : Cache V) : Op V → Cache V
  | .set k v d now => (c.setOp w k v d now).1
  | .get k now => (c.get k now).2
  | .peek k now => (c.peek k now).2
  | .del k => c.deleteOp k
  | .replace k v now => (c.replaceOp w k v now).2
  | .extend k d now => (c.extendOp k d now).2
  | .clear => c.clearOp
  | .filter p now => (c.filterOp p now).2

/-- Apply a finite sequence of operations in order. -/
def applyOps [DecidableEq V] (w : String → V → Int) (c : Cache V) :
    List (Op V) → Cache V
  | [] => c
  | op :: rest => applyOps w (applyOp w c op) rest

/-! ## Aggregate weight accounting (claims C1, C3) -/

/-- Total weight of the bindings of one association list. -/
def sumW (l : List (String × Item V)) : Int :=
  (l.map (fun p => p.2.weight)).sum

/-- Sum of the weights of all items stored across the shards. -/
def Cache.totalWeight (c : Cache V) : Int :=
  (c.shards.map (fun sh => sumW sh.store)).sum

/-- The sequential state invariant: at least one shard, duplicate-free
shard stores, `size` equal to the stored weight, and the post-`Build`
configuration bounds. -/
def CacheInv (c : Cache V) : Prop :=
  1 ≤ c.shards.length ∧
  (∀ sh ∈ c.shards, (akeys sh.store).Nodup) ∧
  c.size = c.totalWeight ∧
  1 ≤ c.cfg.maxWeight ∧ 1 ≤ c.cfg.itemsToPrune ∧ 1 ≤ c.cfg.sampleSize

instance (c : Cache V) [DecidableEq V] : Decidable (CacheInv c) := by
  unfold CacheInv
  infer_instance

theorem aerase_of_absent {β : Type} {k : String} {l : List (String × β)}
    (h : alookup k l = none) : aerase k l = l := by
  induction l with
  | nil => simp [aerase]
  | cons p r ih =>
    by_cases hp : p.1 = k
    · simp [alookup, hp] at h
    · simp [aerase, hp, ih (by simpa [alookup, hp] using h)]

theorem sumW_aupdate_absent {k : String} {it : Item V} {l : List (String × Item V)}
    (h : alookup k l = none) : sumW (aupdate k it l) = sumW l + it.weight := by
  rw [aupdate_eq_append_of_absent h]
  simp [sumW]

theorem sumW_aupdate_present {k : String} {it old : Item V}
    {l : List (String × Item V)} (h : alookup k l = some old) :
    sumW (aupdate k it l) = sumW l - old.weight + it.weight := by
  induction l with
  | nil => simp [alookup] at h
  | cons p r ih =>
    by_cases hp : p.1 = k
    · simp only [alookup, hp, if_pos] at h
      simp [aupdate, hp, sumW, Option.some.inj h]
      ring
    · have h' := by simpa [alookup, hp] using h
      simp only [aupdate, hp, if_neg, ite_false]
      simp only [sumW, List.map_cons, List.sum_cons] at ih ⊢
      rw [ih h']
      ring

theorem sumW_aerase_present {k : String} {old : Item V}
    {l : List (String × Item V)} (h : alookup k l = some old) :
    sumW (aerase k l) = sumW l - old.weight := by
  induction l with
  | nil => simp [alookup] at h
  | cons p r ih =>
    by_cases hp : p.1 = k
    · simp only [alookup, hp, if_pos] at h
      simp [aerase, hp, sumW, Option.some.inj h]
    · have h' := by simpa [alookup, hp] using h
      simp only [aerase, hp, if_neg, ite_false]
      simp only [sumW, List.map_cons, List.sum_cons] at ih ⊢
      rw [ih h']
      ring

theorem sum_map_set {α : Type} (f : α → Int) :
    ∀ (l : List α) (i : Nat) (x : α) (h : i < l.length),
      ((l.set i x).map f).sum = (l.map f).sum - f (l.get ⟨i, h⟩) + f x := by
  intro l
  induction l with
  | nil => intro i x h; simp at h
  | cons a r ih =>
    intro i x h
    cases i with
    | zero => simp [List.set]; ring
    | succ n =>
      have hn : n < r.length := by simpa using h
      simp only [List.set, List.map_cons, List.sum_cons, List.get_cons_succ]
      rw [ih n x hn]
      ring

theorem shardIdx_lt (c : Cache V) (key : String) (h : 1 ≤ c.shards.length) :
    c.shardIdx key < c.shards.length := by
  have hle : Nat.land (fnv32 key) (c.shards.length - 1) ≤ c.shards.length - 1 :=
    Nat.and_le_right
  unfold Cache.shardIdx
  omega

theorem shardAt_eq_get {c : Cache V} {i : Nat} (hi : i < c.shards.length) :
    c.shardAt i = c.shards.get ⟨i, hi⟩ := by
  unfold Cache.shardAt
  rw [List.get?_eq_get hi]
  rfl

theorem shardAt_mem {c : Cache V} {i : Nat} (hi : i < c.shards.length) :
    c.shardAt i ∈ c.shards := by
  rw [shardAt_eq_get hi]
  exact List.get_mem _ _ _

theorem totalWeight_setShard {c : Cache V} {i : Nat} {sh' : Shard V}
    (hi : i < c.shards.length) :
    (c.setShard i sh').totalWeight =
      c.totalWeight - sumW (c.shardAt i).store + sumW sh'.store := by
  unfold Cache.totalWeight Cache.setShard
  simp only
  rw [sum_map_set (fun sh => sumW sh.store) c.shards i sh' hi, shardAt_eq_get hi]

theorem storesNodup_setShard {c : Cache V} {i : Nat} {sh' : Shard V}
    (hall : ∀ sh ∈ c.shards, (akeys sh.store).Nodup)
    (h' : (akeys sh'.store).Nodup) :
    ∀ sh ∈ (c.setShard i sh').shards, (akeys sh.store).Nodup := by
  intro sh hmem
  rcases List.mem_or_eq_of_mem_set hmem with h | h
  · exact hall _ h
  · rw [h]; exact h'

theorem length_setShard (c : Cache V) (i : Nat) (sh' : Shard V) :
    (c.setShard i sh').shards.length = c.shards.length := by
  simp [Cache.setShard]

theorem nodup_updateItem {s : Shard V} {key : String} {f : Item V → Item V}
    (h : (akeys s.store).Nodup) : (akeys (s.updateItem key f).store).Nodup := by
  unfold Shard.updateItem
  cases hl : alookup key s.store with
  | none => exact h
  | some it =>
    exact nodup_akeys_aupdate_of_present h (by simp [hl])

theorem sumW_updateItem {s : Shard V} {key : String} {f : Item V → Item V}
    (hf : ∀ it : Item V, (f it).weight = it.weight) :
    sumW (s.updateItem key f).store = sumW s.store := by
  unfold Shard.updateItem
  cases hl : alookup key s.store with
  | none => rfl
  | some it =>
    simp only
    rw [sumW_aupdate_present hl, hf]
    ring

theorem totalWeight_clearOp (c : Cache V) : (c.clearOp).totalWeight = 0 := by
  unfold Cache.clearOp Cache.totalWeight
  simp only [List.map_map]
  apply List.sum_eq_zero
  intro x hx
  rcases List.mem_map.mp hx with ⟨sh, hsh, rfl⟩
  simp [Shard.clear, sumW]

theorem totalWeight_eq_zero {c : Cache V} (h : ∀ sh ∈ c.shards, sh.store = []) :
    c.totalWeight = 0 := by
  unfold Cache.totalWeight
  have : ∀ x ∈ c.shards.map (fun sh => sumW sh.store), x = 0 := by
    intro x hx
    rcases List.mem_map.mp hx with ⟨sh, hsh, rfl⟩
    rw [h sh hsh]
    rfl
  exact List.sum_eq_zero this

/-- Everything except the PRNG stream; sampling consumes only the
stream. -/
def SameCore (c c' : Cache V) : Prop :=
  c'.cfg = c.cfg ∧ c'.shards = c.shards ∧ c'.accessClock = c.accessClock ∧
  c'.size = c.size ∧ c'.nextId = c.nextId

theorem sameCore_refl (c : Cache V) : SameCore c c :=
  ⟨rfl, rfl, rfl, rfl, rfl⟩

theorem sameCore_trans {a b c : Cache V} (h1 : SameCore a b) (h2 : SameCore b c) :
    SameCore a c :=
  ⟨h2.1.trans h1.1, h2.2.1.trans h1.2.1, h2.2.2.1.trans h1.2.2.1,
   h2.2.2.2.1.trans h1.2.2.2.1, h2.2.2.2.2.trans h1.2.2.2.2⟩

theorem rngNext_core (c : Cache V) : SameCore c (c.rngNext).2 := by
  unfold Cache.rngNext
  cases c.rng <;> exact ⟨rfl, rfl, rfl, rfl, rfl⟩

theorem sampledLruLoop_core :
    ∀ (fuel : Nat) (c : Cache V) (best : Option (Item V)) (bt : Nat),
      SameCore c (sampledLruLoop fuel c best bt).2 := by
  intro fuel
  induction fuel with
  | zero => intro c best bt; exact sameCore_refl c
  | succ n ih =>
    intro c best bt
    have hcc : SameCore c ((c.rngNext).2.rngNext).2 :=
      sameCore_trans (rngNext_core c) (rngNext_core (c.rngNext).2)
    simp only [sampledLruLoop]
    cases hs : ((c.rngNext).2.shardAt
        ((c.rngNext).1 % (c.rngNext).2.shards.length)).sampleNth
        ((c.rngNext).2.rngNext).1 with
    | none => exact sameCore_trans hcc (ih _ _ _)
    | some item =>
      by_cases hb : best.isNone ∨ item.lastAccess < bt
      · simp only [if_pos hb]
        exact sameCore_trans hcc (ih _ _ _)
      · simp only [if_neg hb]
        exact sameCore_trans hcc (ih _ _ _)

theorem sampledLhdLoop_core :
    ∀ (fuel : Nat) (c : Cache V) (best : Option (Item V)) (nt : Nat),
      SameCore c (sampledLhdLoop fuel c best nt).2 := by
  intro fuel
  induction fuel with
  | zero => intro c best nt; exact sameCore_refl c
  | succ n ih =>
    intro c best nt
    have hcc : SameCore c ((c.rngNext).2.rngNext).2 :=
      sameCore_trans (rngNext_core c) (rngNext_core (c.rngNext).2)
    simp only [sampledLhdLoop]
    cases hs : ((c.rngNext).2.shardAt
        ((c.rngNext).1 % (c.rngNext).2.shards.length)).sampleNth
        ((c.rngNext).2.rngNext).1 with
    | none => exact sameCore_trans hcc (ih _ _ _)
    | some item =>
      cases best with
      | none => exact sameCore_trans hcc (ih _ _ _)
      | some b =>
        by_cases hb : lhdIsBetterCandidate item b nt
        · simp only [if_pos hb]
          exact sameCore_trans hcc (ih _ _ _)
        · simp only [if_neg hb]
          exact sameCore_trans hcc (ih _ _ _)

theorem pick_core (c : Cache V) : SameCore c (c.pickEvictionCandidate).2 := by
  unfold Cache.pickEvictionCandidate
  by_cases h1 : (c.itemCount : Int) ≤ c.cfg.sampleSize
  · simp only [if_pos h1]
    by_cases h2 : c.cfg.evictionPolicy = SampledLhd
    · simp only [if_pos h2]; exact sameCore_refl c
    · simp only [if_neg h2]; exact sameCore_refl c
  · simp only [if_neg h1]
    by_cases h2 : c.cfg.evictionPolicy = SampledLhd
    · simp only [if_pos h2]
      cases hr : (c.pickSampledLhd).1 with
      | some best =>
        simp only
        have := sampledLhdLoop_core c.cfg.sampleSize.toNat c none
          (if c.accessClock = 0 then 1 else c.accessClock)
        exact this
      | none =>
        simp only
        exact sampledLhdLoop_core c.cfg.sampleSize.toNat c none _
    · simp only [if_neg h2]
      cases hr : (c.pickSampledLru).1 with
      | some best =>
        simp only
        exact sampledLruLoop_core c.cfg.sampleSize.toNat c none _
      | none =>
        simp only
        exact sampledLruLoop_core c.cfg.sampleSize.toNat c none _

theorem cacheInv_of_core {c c' : Cache V} (h : SameCore c c') (hc : CacheInv c) :
    CacheInv c' := by
  obtain ⟨hcfg, hsh, hclk, hsz, hid⟩ := h
  refine ⟨by rw [hsh]; exact hc.1, by rw [hsh]; exact hc.2.1, ?_, ?_⟩
  · rw [hsz, hc.2.2.1]
    unfold Cache.totalWeight
    rw [hsh]
  · rw [hcfg]
    exact hc.2.2.2

theorem scanOldestFold_isSome :
    ∀ (entries : List (String × Item V)) (acc : Option (Item V) × Nat),
      acc.1.isSome → ((scanOldestFold acc entries).1).isSome := by
  intro entries
  induction entries with
  | nil => intro acc h; exact h
  | cons p r ih =>
    intro acc h
    simp only [scanOldestFold, List.foldl_cons]
    by_cases hcond : acc.1.isNone ∨ p.2.lastAccess < acc.2
    · simp only [if_pos hcond]
      exact ih _ (by simp)
    · simp only [if_neg hcond]
      exact ih _ h

theorem scanOldestFold_nonempty :
    ∀ (entries : List (String × Item V)) (acc : Option (Item V) × Nat),
      entries ≠ [] → ((scanOldestFold acc entries).1).isSome := by
  intro entries
  cases entries with
  | nil => intro acc h; exact absurd rfl h
  | cons p r =>
    intro acc _
    simp only [scanOldestFold, List.foldl_cons]
    by_cases hcond : acc.1.isNone ∨ p.2.lastAccess < acc.2
    · simp only [if_pos hcond]
      exact scanOldestFold_isSome r _ (by simp)
    · simp only [if_neg hcond]
      have hs : acc.1.isSome := by
        cases hv : acc.1 with
        | none => exact absurd (Or.inl (by simp [hv])) hcond
        | some x => simp
      exact scanOldestFold_isSome r _ hs

theorem scanShardsFold_isSome :
    ∀ (shs : List (Shard V)) (acc : Option (Item V) × Nat), acc.1.isSome →
      ((shs.foldl (fun acc sh => scanOldestFold acc sh.store) acc).1).isSome := by
  intro shs
  induction shs with
  | nil => intro acc h; exact h
  | cons s r ih =>
    intro acc h
    simp only [List.foldl_cons]
    exact ih _ (scanOldestFold_isSome s.store acc h)

theorem scanOldest_none_empty :
    ∀ (shs : List (Shard V)) (acc : Option (Item V) × Nat),
      ((shs.foldl (fun acc sh => scanOldestFold acc sh.store) acc).1) = none →
      ∀ sh ∈ shs, sh.store = [] := by
  intro shs
  induction shs with
  | nil => intro acc _ sh hm; simp at hm
  | cons s r ih =>
    intro acc h sh hm
    simp only [List.foldl_cons] at h
    have hsempty : s.store = [] := by
      by_contra hne
      have h1 : ((scanOldestFold acc s.store).1).isSome :=
        scanOldestFold_nonempty s.store acc hne
      have h2 := scanShardsFold_isSome r _ h1
      rw [h] at h2
      simp at h2
    rcases List.mem_cons.mp hm with hm | hm
    · rw [hm]; exact hsempty
    · exact ih _ h sh hm

theorem lhdInnerFold_isSome (nt : Nat) :
    ∀ (entries : List (String × Item V)) (best : Option (Item V)),
      best.isSome →
      (entries.foldl
        (fun best p =>
          match best with
          | none => some p.2
          | some b => if lhdIsBetterCandidate p.2 b nt then some p.2 else some b)
        best).isSome := by
  intro entries
  induction entries with
  | nil => intro best h; exact h
  | cons p r ih =>
    intro best h
    cases best with
    | none => simp at h
    | some b =>
      simp only [List.foldl_cons]
      by_cases hc : lhdIsBetterCandidate p.2 b nt
      · simp only [if_pos hc]
        exact ih _ (by simp)
      · simp only [if_neg hc]
        exact ih _ (by simp)

theorem lhdInnerFold_nonempty (nt : Nat) :
    ∀ (entries : List (String × Item V)) (best : Option (Item V)),
      entries ≠ [] →
      (entries.foldl
        (fun best p =>
          match best with
          | none => some p.2
          | some b => if lhdIsBetterCandidate p.2 b nt then some p.2 else some b)
        best).isSome := by
  intro entries
  cases entries with
  | nil => intro best h; exact absurd rfl h
  | cons p r =>
    intro best _
    simp only [List.foldl_cons]
    cases best with
    | none => exact lhdInnerFold_isSome nt r _ (by simp)
    | some b =>
      by_cases hc : lhdIsBetterCandidate p.2 b nt
      · simp only [if_pos hc]
        exact lhdInnerFold_isSome nt r _ (by simp)
      · simp only [if_neg hc]
        exact lhdInnerFold_isSome nt r _ (by simp)

theorem lhdShardsFold_isSome (nt : Nat) :
    ∀ (shs : List (Shard V)) (best : Option (Item V)), best.isSome →
      (shs.foldl
        (fun best sh =>
          sh.store.foldl
            (fun best p =>
              match best with
              | none => some p.2
              | some b => if lhdIsBetterCandidate p.2 b nt then some p.2 else some b)
            best)
        best).isSome := by
  intro shs
  induction shs with
  | nil => intro best h; exact h
  | cons s r ih =>
    intro best h
    simp only [List.foldl_cons]
    exact ih _ (lhdInnerFold_isSome nt s.store best h)

theorem scanLhd_none_empty (nt : Nat) :
    ∀ (shs : List (Shard V)) (best : Option (Item V)),
      (shs.foldl
        (fun best sh =>
          sh.store.foldl
            (fun best p =>
              match best with
              | none => some p.2
              | some b => if lhdIsBetterCandidate p.2 b nt then some p.2 else some b)
            best)
        best) = none →
      ∀ sh ∈ shs, sh.store = [] := by
  intro shs
  induction shs with
  | nil => intro best _ sh hm; simp at hm
  | cons s r ih =>
    intro best h sh hm
    simp only [List.foldl_cons] at h
    have hsempty : s.store = [] := by
      by_contra hne
      have h1 := lhdInnerFold_nonempty nt s.store best hne
      have h2 := lhdShardsFold_isSome nt r _ h1
      rw [h] at h2
      simp at h2
    rcases List.mem_cons.mp hm with hm | hm
    · rw [hm]; exact hsempty
    · exact ih _ h sh hm

theorem pick_none_empty (c : Cache V) (h : (c.pickEvictionCandidate).1 = none) :
    ∀ sh ∈ c.shards, sh.store = [] := by
  unfold Cache.pickEvictionCandidate at h
  by_cases h1 : (c.itemCount : Int) ≤ c.cfg.sampleSize
  · simp only [if_pos h1] at h
    by_cases h2 : c.cfg.evictionPolicy = SampledLhd
    · simp only [if_pos h2] at h
      exact scanLhd_none_empty _ c.shards none h
    · simp only [if_neg h2] at h
      exact scanOldest_none_empty c.shards _ h
  · simp only [if_neg h1] at h
    by_cases h2 : c.cfg.evictionPolicy = SampledLhd
    · simp only [if_pos h2] at h
      cases hr : (c.pickSampledLhd).1 with
      | some best => rw [hr] at h; simp at h
      | none =>
        rw [hr] at h
        simp only at h
        have hsh : (c.pickSampledLhd).2.shards = c.shards :=
          (sampledLhdLoop_core c.cfg.sampleSize.toNat c none _).2.1
        intro sh hm
        exact scanLhd_none_empty _ (c.pickSampledLhd).2.shards none h sh
          (by rw [hsh]; exact hm)
    · simp only [if_neg h2] at h
      cases hr : (c.pickSampledLru).1 with
      | some best => rw [hr] at h; simp at h
      | none =>
        rw [hr] at h
        simp only at h
        have hsh : (c.pickSampledLru).2.shards = c.shards :=
          (sampledLruLoop_core c.cfg.sampleSize.toNat c none _).2.1
        intro sh hm
        exact scanOldest_none_empty (c.pickSampledLru).2.shards _ h sh
          (by rw [hsh]; exact hm)

theorem removeStored_store {s : Shard V} {k : String} {old : Item V} :
    (s.removeStored k old).store = aerase k s.store := by
  unfold Shard.removeStored
  by_cases h : (alookup k s.pos).getD 0 ≠ s.items.length - 1
  · simp [h]
  · simp [h]

theorem deleteIfSame_of_absent [DecidableEq V] {s : Shard V} {k : String}
    {e : Item V} (h : alookup k s.store = none) :
    s.deleteIfSame k e = (false, s) := by
  simp [Shard.deleteIfSame, h]

theorem deleteIfSame_of_ne [DecidableEq V] {s : Shard V} {k : String}
    {e current : Item V} (h : alookup k s.store = some current)
    (hne : current ≠ e) : s.deleteIfSame k e = (false, s) := by
  simp [Shard.deleteIfSame, h, hne]

theorem deleteIfSame_of_eq [DecidableEq V] {s : Shard V} {k : String}
    {e : Item V} (h : alookup k s.store = some e) :
    s.deleteIfSame k e = (true, s.removeStored k e) := by
  simp [Shard.deleteIfSame, h]

theorem deleteIfSame_cases [DecidableEq V] (s : Shard V) (k : String) (e : Item V) :
    ((s.deleteIfSame k e).1 = false ∧ (s.deleteIfSame k e).2 = s) ∨
    ((s.deleteIfSame k e).1 = true ∧ alookup k s.store = some e ∧
      (s.deleteIfSame k e).2.store = aerase k s.store) := by
  cases h : alookup k s.store with
  | none =>
    left
    rw [deleteIfSame_of_absent h]
    exact ⟨by simp, by simp⟩
  | some current =>
    by_cases he : current = e
    · right
      subst he
      rw [deleteIfSame_of_eq h]
      exact ⟨by simp, by simp, removeStored_store⟩
    · left
      rw [deleteIfSame_of_ne h he]
      exact ⟨by simp, by simp⟩

/-- `evictStep` preserves the invariant. -/
theorem evictStep_inv [DecidableEq V] {cp : Cache V} (hinv : CacheInv cp)
    (cand : Item V) : CacheInv (evictStep cp cand) := by
  have hi : cp.shardIdx cand.key < cp.shards.length := shardIdx_lt cp cand.key hinv.1
  unfold evictStep
  dsimp only
  rcases deleteIfSame_cases (cp.shardAt (cp.shardIdx cand.key)) cand.key cand with
    ⟨hf, hsame⟩ | ⟨ht, hlk, hst⟩
  · rw [hf]
    simp only [Bool.false_eq_true, if_false]
    refine ⟨by rw [length_setShard]; exact hinv.1,
            storesNodup_setShard hinv.2.1 (by rw [hsame]; exact hinv.2.1 _ (shardAt_mem hi)),
            ?_, hinv.2.2.2⟩
    show cp.size = _
    rw [totalWeight_setShard hi, hsame, hinv.2.2.1]
    ring
  · rw [ht]
    simp only [if_true]
    refine ⟨?_, ?_, ?_, hinv.2.2.2⟩
    · show 1 ≤ (cp.setShard (cp.shardIdx cand.key)
        ((cp.shardAt (cp.shardIdx cand.key)).deleteIfSame cand.key cand).2).shards.length
      rw [length_setShard]
      exact hinv.1
    · show ∀ sh ∈ (cp.setShard (cp.shardIdx cand.key)
        ((cp.shardAt (cp.shardIdx cand.key)).deleteIfSame cand.key cand).2).shards,
        (akeys sh.store).Nodup
      exact storesNodup_setShard hinv.2.1
        (by rw [hst]; exact nodup_akeys_aerase (hinv.2.1 _ (shardAt_mem hi)))
    · show cp.size - cand.weight = (cp.setShard (cp.shardIdx cand.key)
        ((cp.shardAt (cp.shardIdx cand.key)).deleteIfSame cand.key cand).2).totalWeight
      rw [totalWeight_setShard hi, hst, sumW_aerase_present hlk, hinv.2.2.1]
      ring

/-- `evictStep` does not change the configuration. -/
theorem evictStep_cfg [DecidableEq V] (cp : Cache V) (cand : Item V) :
    (evictStep cp cand).cfg = cp.cfg := by
  unfold evictStep
  by_cases h : ((cp.shardAt (cp.shardIdx cand.key)).deleteIfSame cand.key cand).1
  · simp [h, Cache.setShard]
  · simp [h, Cache.setShard]

theorem evictLoop_props [DecidableEq V] :
    ∀ (fuel : Nat) (c : Cache V), CacheInv c →
      CacheInv (evictLoop fuel c).1 ∧
      (evictLoop fuel c).1.cfg = c.cfg ∧
      ((evictLoop fuel c).1.size ≤ c.cfg.maxWeight ∨ (evictLoop fuel c).2 = fuel) := by
  intro fuel
  induction fuel with
  | zero =>
    intro c hc
    exact ⟨hc, rfl, Or.inr rfl⟩
  | succ n ih =>
    intro c hc
    by_cases hsz : c.size ≤ c.cfg.maxWeight
    · simp only [evictLoop, if_pos hsz]
      exact ⟨hc, by simp, Or.inl hsz⟩
    · simp only [evictLoop, if_neg hsz]
      cases hpk : (c.pickEvictionCandidate).1 with
      | none =>
        dsimp only
        exfalso
        have hemp := pick_none_empty c hpk
        have h0 : c.totalWeight = 0 := totalWeight_eq_zero hemp
        have hs0 : c.size = 0 := by rw [hc.2.2.1, h0]
        have hmax := hc.2.2.2.1
        apply hsz
        omega
      | some cand =>
        dsimp only
        have hcore : SameCore c (c.pickEvictionCandidate).2 := pick_core c
        have hinv' : CacheInv (c.pickEvictionCandidate).2 := cacheInv_of_core hcore hc
        have hinv3 := evictStep_inv hinv' cand
        have hcfg3 : (evictStep (c.pickEvictionCandidate).2 cand).cfg = c.cfg := by
          rw [evictStep_cfg, hcore.1]
        obtain ⟨hI, hC, hS⟩ := ih _ hinv3
        refine ⟨hI, by rw [hC, hcfg3], ?_⟩
        rcases hS with hS | hS
        · left
          rw [hcfg3] at hS
          exact hS
        · right
          omega

theorem Shard.set_store {s : Shard V} {k : String} {it : Item V} :
    (s.set k it).2.store = aupdate k it s.store := by
  unfold Shard.set
  cases h : alookup k s.store <;> simp [h]

theorem cacheInv_setInstall {cb : Cache V} (hinv : CacheInv cb) (k : String)
    (item : Item V) : CacheInv (setInstall cb k item) := by
  have hi : cb.shardIdx k < cb.shards.length := shardIdx_lt cb k hinv.1
  unfold setInstall
  dsimp only
  have hnodup : (akeys ((cb.shardAt (cb.shardIdx k)).set k item).2.store).Nodup := by
    rw [Shard.set_store]
    cases h : alookup k (cb.shardAt (cb.shardIdx k)).store with
    | none =>
      exact nodup_akeys_aupdate_of_absent (hinv.2.1 _ (shardAt_mem hi)) h
    | some old =>
      exact nodup_akeys_aupdate_of_present (hinv.2.1 _ (shardAt_mem hi)) (by simp [h])
  cases h : ((cb.shardAt (cb.shardIdx k)).set k item).1 with
  | none =>
    dsimp only
    have habs : alookup k (cb.shardAt (cb.shardIdx k)).store = none := by
      cases h2 : alookup k (cb.shardAt (cb.shardIdx k)).store with
      | none => rfl
      | some o =>
        rw [Shard.set_of_present h2] at h
        simp at h
    refine ⟨by rw [length_setShard]; exact hinv.1,
            storesNodup_setShard hinv.2.1 hnodup, ?_, hinv.2.2.2⟩
    show cb.size + item.weight =
      (cb.setShard (cb.shardIdx k) ((cb.shardAt (cb.shardIdx k)).set k item).2).totalWeight
    rw [totalWeight_setShard hi, Shard.set_store, sumW_aupdate_absent habs,
      hinv.2.2.1]
    ring
  | some old =>
    dsimp only
    have hpres : alookup k (cb.shardAt (cb.shardIdx k)).store = some old := by
      cases h2 : alookup k (cb.shardAt (cb.shardIdx k)).store with
      | none =>
        rw [Shard.set_of_absent h2] at h
        simp at h
      | some o =>
        rw [Shard.set_of_present h2] at h
        simp only [Option.some.injEq] at h
        rw [h]
    refine ⟨by rw [length_setShard]; exact hinv.1,
            storesNodup_setShard hinv.2.1 hnodup, ?_, hinv.2.2.2⟩
    show cb.size - old.weight + item.weight =
      (cb.setShard (cb.shardIdx k) ((cb.shardAt (cb.shardIdx k)).set k item).2).totalWeight
    rw [totalWeight_setShard hi, Shard.set_store, sumW_aupdate_present hpres,
      hinv.2.2.1]
    ring

theorem setInstall_cfg (c : Cache V) (k : String) (item : Item V) :
    (setInstall c k item).cfg = c.cfg := by
  unfold setInstall
  dsimp only
  cases h : ((c.shardAt (c.shardIdx k)).set k item).1 <;> rfl

theorem cacheInv_setOp [DecidableEq V] (w : String → V → Int) {c : Cache V}
    (hc : CacheInv c) (k : String) (v : V) (d now : Int) :
    CacheInv (c.setOp w k v d now).1 ∧ (c.setOp w k v d now).1.cfg = c.cfg := by
  unfold Cache.setOp Cache.evictIfNeeded
  dsimp only
  have hc1 : CacheInv ({ c with nextId := c.nextId + 1 } : Cache V).nextTick.2 := by
    exact ⟨hc.1, hc.2.1, hc.2.2.1, hc.2.2.2⟩
  have hinst := cacheInv_setInstall hc1 k
    ((newItem c.nextId k v (now + d) (w k v)).setCreatedTick
      ({ c with nextId := c.nextId + 1 } : Cache V).nextTick.1 |>.touch
      ({ c with nextId := c.nextId + 1 } : Cache V).nextTick.1)
  have := evictLoop_props (V := V)
    (setInstall ({ c with nextId := c.nextId + 1 } : Cache V).nextTick.2 k
      ((newItem c.nextId k v (now + d) (w k v)).setCreatedTick
        ({ c with nextId := c.nextId + 1 } : Cache V).nextTick.1 |>.touch
        ({ c with nextId := c.nextId + 1 } : Cache V).nextTick.1)).cfg.itemsToPrune.toNat
    _ hinst
  refine ⟨this.1, ?_⟩
  rw [this.2.1, setInstall_cfg]
  rfl

theorem Shard.delete_of_absent {s : Shard V} {k : String}
    (h : alookup k s.store = none) : s.delete k = (none, s) := by
  simp [Shard.delete, h]

theorem Shard.delete_of_present {s : Shard V} {k : String} {old : Item V}
    (h : alookup k s.store = some old) :
    s.delete k = (some old, s.removeStored k old) := by
  simp [Shard.delete, h]

theorem peek_state (c : Cache V) (k : String) (now : Int) :
    (c.peek k now).2 = c := by
  unfold Cache.peek
  cases h : (c.shardAt (c.shardIdx k)).get k with
  | none => rfl
  | some item =>
    by_cases hx : c.cfg.expirationPolicy = TreatExpiredAsMiss ∧ item.ExpiredAt now
    · simp [hx]
    · simp [hx]

theorem cacheInv_get {c : Cache V} (hc : CacheInv c) (k : String) (now : Int) :
    CacheInv (c.get k now).2 ∧ (c.get k now).2.cfg = c.cfg := by
  unfold Cache.get
  dsimp only
  cases h : (c.shardAt (c.shardIdx k)).get k with
  | none => exact ⟨hc, rfl⟩
  | some item =>
    dsimp only
    by_cases hx : c.cfg.expirationPolicy = TreatExpiredAsMiss ∧ item.ExpiredAt now
    · rw [if_pos hx]
      exact ⟨hc, rfl⟩
    · rw [if_neg hx]
      dsimp only
      have hi : c.shardIdx k < c.nextTick.2.shards.length := shardIdx_lt c k hc.1
      have hc' : CacheInv c.nextTick.2 := ⟨hc.1, hc.2.1, hc.2.2.1, hc.2.2.2⟩
      constructor
      · refine ⟨by rw [length_setShard]; exact hc'.1,
          storesNodup_setShard hc'.2.1
            (nodup_updateItem (hc'.2.1 _ (shardAt_mem hi))), ?_, hc'.2.2.2⟩
        show c.nextTick.2.size = _
        rw [totalWeight_setShard hi,
          sumW_updateItem (f := fun it => it.recordHit c.nextTick.1) (fun it => rfl),
          hc'.2.2.1]
        ring
      · rfl

theorem cacheInv_deleteOp {c : Cache V} (hc : CacheInv c) (k : String) :
    CacheInv (c.deleteOp k) ∧ (c.deleteOp k).cfg = c.cfg := by
  unfold Cache.deleteOp
  dsimp only
  have hi : c.shardIdx k < c.shards.length := shardIdx_lt c k hc.1
  cases h : alookup k (c.shardAt (c.shardIdx k)).store with
  | none =>
    rw [Shard.delete_of_absent h]
    dsimp only
    constructor
    · refine ⟨by rw [length_setShard]; exact hc.1,
        storesNodup_setShard hc.2.1 (hc.2.1 _ (shardAt_mem hi)), ?_, hc.2.2.2⟩
      show c.size = _
      rw [totalWeight_setShard hi, hc.2.2.1]
      ring
    · rfl
  | some old =>
    rw [Shard.delete_of_present h]
    dsimp only
    constructor
    · refine ⟨by rw [length_setShard]; exact hc.1,
        storesNodup_setShard hc.2.1
          (by rw [removeStored_store]
              exact nodup_akeys_aerase (hc.2.1 _ (shardAt_mem hi))), ?_, hc.2.2.2⟩
      show c.size - old.weight = (c.setShard (c.shardIdx k)
        ((c.shardAt (c.shardIdx k)).removeStored k old)).totalWeight
      rw [totalWeight_setShard hi, removeStored_store, sumW_aerase_present h,
        hc.2.2.1]
      ring
    · rfl

theorem cacheInv_extendOp {c : Cache V} (hc : CacheInv c) (k : String)
    (d now : Int) :
    CacheInv (c.extendOp k d now).2 ∧ (c.extendOp k d now).2.cfg = c.cfg := by
  unfold Cache.extendOp
  dsimp only
  cases h : c.peekRaw k with
  | none => exact ⟨hc, rfl⟩
  | some item =>
    dsimp only
    have hc' : CacheInv c.nextTick.2 := ⟨hc.1, hc.2.1, hc.2.2.1, hc.2.2.2⟩
    have hi : c.nextTick.2.shardIdx k < c.nextTick.2.shards.length :=
      shardIdx_lt c.nextTick.2 k hc'.1
    constructor
    · refine ⟨by rw [length_setShard]; exact hc'.1,
        storesNodup_setShard hc'.2.1
          (nodup_updateItem (hc'.2.1 _ (shardAt_mem hi))), ?_, hc'.2.2.2⟩
      show c.nextTick.2.size = _
      rw [totalWeight_setShard hi,
        sumW_updateItem (f := fun it => (it.extend d now).touch c.nextTick.1)
          (fun it => rfl),
        hc'.2.2.1]
      ring
    · rfl

theorem cacheInv_clearOp {c : Cache V} (hc : CacheInv c) :
    CacheInv c.clearOp ∧ c.clearOp.cfg = c.cfg := by
  constructor
  · refine ⟨by simpa [Cache.clearOp] using hc.1, ?_, ?_, hc.2.2.2⟩
    · intro sh hm
      rcases List.mem_map.mp (by simpa [Cache.clearOp] using hm) with ⟨s0, _, rfl⟩
      simp [Shard.clear, akeys]
    · show (0 : Int) = _
      rw [totalWeight_clearOp]
  · rfl

theorem cacheInv_replaceOp [DecidableEq V] (w : String → V → Int) {c : Cache V}
    (hc : CacheInv c) (k : String) (v : V) (now : Int) :
    CacheInv (c.replaceOp w k v now).2 ∧ (c.replaceOp w k v now).2.cfg = c.cfg := by
  unfold Cache.replaceOp
  cases h : c.peekRaw k with
  | none => exact ⟨hc, rfl⟩
  | some item =>
    dsimp only
    exact cacheInv_setOp w hc k v (item.ttlAt now) now

theorem cacheInv_filterFold (pattern : String) (now : Int) :
    ∀ (entries : List (String × Item V)) (acc : Cache V × List (Item V)),
      CacheInv acc.1 →
      CacheInv (rangeFold (filterFn pattern now) entries acc).2.1 ∧
      (rangeFold (filterFn pattern now) entries acc).2.1.cfg = acc.1.cfg := by
  intro entries
  induction entries with
  | nil => intro acc h; exact ⟨h, rfl⟩
  | cons p r ih =>
    intro acc h
    simp only [rangeFold]
    have hstep : CacheInv ((filterFn pattern now) acc p.2.key p.2.value).2.1 ∧
        ((filterFn pattern now) acc p.2.key p.2.value).2.1.cfg = acc.1.cfg := by
      unfold filterFn
      by_cases hp : strContains p.2.key pattern
      · rw [if_pos hp]
        dsimp only
        cases hg : (acc.1.get p.2.key now).1 with
        | some item =>
          dsimp only
          exact cacheInv_get h p.2.key now
        | none =>
          dsimp only
          exact cacheInv_get h p.2.key now
      · rw [if_neg hp]
        exact ⟨h, rfl⟩
    by_cases hcont : ((filterFn pattern now) acc p.2.key p.2.value).1
    · rw [if_pos hcont]
      obtain ⟨h1, h2⟩ := ih _ hstep.1
      exact ⟨h1, h2.trans hstep.2⟩
    · rw [if_neg hcont]
      exact hstep

theorem cacheInv_rangeShardsFold (pattern : String) (now : Int) :
    ∀ (shs : List (Shard V)) (st : Bool × (Cache V × List (Item V))),
      CacheInv st.2.1 →
      CacheInv (shs.foldl
        (fun st sh => if st.1 then rangeFold (filterFn pattern now) sh.store st.2 else st)
        st).2.1 ∧
      (shs.foldl
        (fun st sh => if st.1 then rangeFold (filterFn pattern now) sh.store st.2 else st)
        st).2.1.cfg = st.2.1.cfg := by
  intro shs
  induction shs with
  | nil => intro st h; exact ⟨h, rfl⟩
  | cons s r ih =>
    intro st h
    simp only [List.foldl_cons]
    by_cases hb : st.1
    · rw [if_pos hb]
      obtain ⟨h1, h2⟩ := cacheInv_filterFold pattern now s.store st.2 h
      have hrf : CacheInv (true, rangeFold (filterFn pattern now) s.store st.2).2.2.1 := by
        dsimp only
        exact h1
      obtain ⟨h3, h4⟩ := ih ((rangeFold (filterFn pattern now) s.store st.2).1,
        (rangeFold (filterFn pattern now) s.store st.2).2) (by dsimp only; exact h1)
      constructor
      · exact h3
      · exact h4.trans h2
    · rw [if_neg hb]
      exact ih st h

theorem cacheInv_filterOp {c : Cache V} (hc : CacheInv c) (pattern : String)
    (now : Int) :
    CacheInv (c.filterOp pattern now).2 ∧ (c.filterOp pattern now).2.cfg = c.cfg := by
  unfold Cache.filterOp Cache.rangeOp
  dsimp only
  exact cacheInv_rangeShardsFold pattern now c.shards (true, (c, [])) hc

theorem cacheInv_applyOp [DecidableEq V] (w : String → V → Int) {c : Cache V}
    (hc : CacheInv c) (op : Op V) :
    CacheInv (applyOp w c op) ∧ (applyOp w c op).cfg = c.cfg := by
  cases op with
  | set k v d now => exact cacheInv_setOp w hc k v d now
  | get k now => exact cacheInv_get hc k now
  | peek k now =>
    show CacheInv (c.peek k now).2 ∧ (c.peek k now).2.cfg = c.cfg
    rw [peek_state]
    exact ⟨hc, rfl⟩
  | del k => exact cacheInv_deleteOp hc k
  | replace k v now => exact cacheInv_replaceOp w hc k v now
  | extend k d now => exact cacheInv_extendOp hc k d now
  | clear => exact cacheInv_clearOp hc
  | filter p now => exact cacheInv_filterOp hc p now

theorem cacheInv_applyOps [DecidableEq V] (w : String → V → Int) :
    ∀ (ops : List (Op V)) {c : Cache V}, CacheInv c →
      CacheInv (applyOps w c ops) ∧ (applyOps w c ops).cfg = c.cfg := by
  intro ops
  induction ops with
  | nil => intro c h; exact ⟨h, rfl⟩
  | cons op rest ih =>
    intro c h
    simp only [applyOps]
    obtain ⟨h1, h2⟩ := cacheInv_applyOp w h op
    obtain ⟨h3, h4⟩ := ih h1
    exact ⟨h3, h4.trans h2⟩

theorem config_build_bounds (cfg : Config) :
    1 ≤ cfg.build.maxWeight ∧ 1 ≤ cfg.build.itemsToPrune ∧
      1 ≤ cfg.build.sampleSize := by
  unfold Config.build
  refine ⟨?_, ?_, ?_⟩ <;> dsimp only <;> split <;> omega

theorem cacheInv_new (V : Type) (cfg : Config) (rng : List Nat) :
    CacheInv (Cache.new V cfg rng) := by
  unfold Cache.new
  dsimp only
  refine ⟨?_, ?_, ?_, config_build_bounds cfg⟩
  · rw [List.length_replicate]
    by_cases h : cfg.build.shards < 1 ∨ 4294967295 < cfg.build.shards
    · rw [if_pos h]
      norm_num
    · rw [if_neg h]
      push_neg at h
      omega
  · intro sh hm
    rw [List.eq_of_mem_replicate hm]
    simp [newShard, akeys]
  · show (0 : Int) = _
    unfold Cache.totalWeight
    dsimp only
    symm
    apply List.sum_eq_zero
    intro x hx
    rcases List.mem_map.mp hx with ⟨sh, hm, rfl⟩
    rw [List.eq_of_mem_replicate hm]
    rfl

/-- C3: After any finite sequence of cache operations executed
sequentially on a freshly constructed cache, with a weigher that returns
non-negative weights, the aggregate `size` equals the sum of the weights
of the items currently stored across all shards. -/
theorem size_eq_stored_weight [DecidableEq V] (w : String → V → Int)
    (hw : ∀ (k : String) (v : V), 0 ≤ w k v) (cfg : Config) (rng : List Nat)
    (ops : List (Op V)) :
    (applyOps w (Cache.new V cfg rng) ops).size =
      (applyOps w (Cache.new V cfg rng) ops).totalWeight :=
  ((cacheInv_applyOps w ops (cacheInv_new V cfg rng)).1).2.2.1

theorem setOp_stop [DecidableEq V] (w : String → V → Int) {c : Cache V}
    (hc : CacheInv c) (k : String) (v : V) (d now : Int) :
    (c.setOp w k v d now).1.size ≤ c.cfg.maxWeight ∨
      (c.setOp w k v d now).2 = c.cfg.itemsToPrune.toNat := by
  unfold Cache.setOp Cache.evictIfNeeded
  dsimp only
  have hc1 : CacheInv ({ c with nextId := c.nextId + 1 } : Cache V).nextTick.2 := by
    exact ⟨hc.1, hc.2.1, hc.2.2.1, hc.2.2.2⟩
  have hinst := cacheInv_setInstall hc1 k
    ((newItem c.nextId k v (now + d) (w k v)).setCreatedTick
      ({ c with nextId := c.nextId + 1 } : Cache V).nextTick.1 |>.touch
      ({ c with nextId := c.nextId + 1 } : Cache V).nextTick.1)
  have hprops := evictLoop_props (V := V)
    (setInstall ({ c with nextId := c.nextId + 1 } : Cache V).nextTick.2 k
      ((newItem c.nextId k v (now + d) (w k v)).setCreatedTick
        ({ c with nextId := c.nextId + 1 } : Cache V).nextTick.1 |>.touch
        ({ c with nextId := c.nextId + 1 } : Cache V).nextTick.1)).cfg.itemsToPrune.toNat
    _ hinst
  have hcfg : (setInstall ({ c with nextId := c.nextId + 1 } : Cache V).nextTick.2 k
      ((newItem c.nextId k v (now + d) (w k v)).setCreatedTick
        ({ c with nextId := c.nextId + 1 } : Cache V).nextTick.1 |>.touch
        ({ c with nextId := c.nextId + 1 } : Cache V).nextTick.1)).cfg = c.cfg := by
    rw [setInstall_cfg]
    rfl
  rcases hprops.2.2 with h | h
  · left
    nth_rewrite 2 [hcfg] at h
    exact h
  · right
    nth_rewrite 2 [hcfg] at h
    exact h

/-- C1: for a cache built from a validated configuration, in every state
reached by a finite sequence of sequentially executed operations, when
`Set(key, value, ttl)` returns, either the aggregate `size` is at most
`max_weight`, or the eviction loop inside that `Set` executed exactly
`items_to_prune` iterations. -/
theorem set_converges_or_exhausts_prune [DecidableEq V] (w : String → V → Int)
    (cfg : Config) (rng : List Nat) (ops : List (Op V)) (k : String) (v : V)
    (d now : Int) :
    ((applyOps w (Cache.new V cfg rng) ops).setOp w k v d now).1.size ≤
        (applyOps w (Cache.new V cfg rng) ops).cfg.maxWeight ∨
      ((applyOps w (Cache.new V cfg rng) ops).setOp w k v d now).2 =
        (applyOps w (Cache.new V cfg rng) ops).cfg.itemsToPrune.toNat :=
  setOp_stop w ((cacheInv_applyOps w ops (cacheInv_new V cfg rng)).1) k v d now

/-! ## The LHD ranking (claim C4) -/

/-- The denominator `lhdStats` actually computes: the `uint64` product
`age * weight` wraps modulo `2^64` before the final clamp. -/
def lhdDenomWrapped (item : Item V) (nowTick : Nat) : Nat :=
  max ((max (if item.created < nowTick then nowTick - item.created else 0) 1 *
        max (if 0 < item.weight then item.weight.toNat else 0) 1) %
       18446744073709551616) 1

/-- The denominator of claim C4 read literally: modelled from the spec's
words, `denom = max(1, max(1, saturating(now_tick - created_tick)) *
max(1, weight))` with an exact (unwrapped) product, for comparison with
the code's `lhdDenomWrapped`. -/
def lhdDenomExact (item : Item V) (nowTick : Nat) : Nat :=
  max (max (if item.created < nowTick then nowTick - item.created else 0) 1 *
       max (if 0 < item.weight then item.weight.toNat else 0) 1) 1

/-- The ranking relation of claim C4 read literally (exact denominators):
`A` is better than `B` exactly when `hits_A * denom_B < hits_B * denom_A`
as exact integers; on equal products the heavier item wins, and on equal
weight the smaller `last_access_tick` wins. -/
def specLhdBetter (a b : Item V) (nowTick : Nat) : Prop :=
  a.hits * lhdDenomExact b nowTick < b.hits * lhdDenomExact a nowTick ∨
  (a.hits * lhdDenomExact b nowTick = b.hits * lhdDenomExact a nowTick ∧
    (b.weight < a.weight ∨ (a.weight = b.weight ∧ a.lastAccess < b.lastAccess)))

theorem lhdStats_hits (item : Item V) (nt : Nat) :
    (lhdStats item nt).1 = item.hits := rfl

theorem lhdStats_denom (item : Item V) (nt : Nat) :
    (lhdStats item nt).2 = lhdDenomWrapped item nt := rfl

/-- C4 (amended): the LHD ranking declares `A` better than `B` exactly
when `hits_A * denom_B < hits_B * denom_A` as exact 128-bit products —
with `denom` computed as the code computes it, i.e. the inner
`age * weight` product wrapping modulo `2^64` — with the heavier-item and
smaller-tick tie-breaks; stated for items whose `hits` fit in `uint64`,
as all Go items do. -/
theorem lhd_ranking (a b : Item V) (nt : Nat)
    (ha : a.hits < 18446744073709551616) (hb : b.hits < 18446744073709551616) :
    lhdIsBetterCandidate a b nt = true ↔
      (a.hits * lhdDenomWrapped b nt < b.hits * lhdDenomWrapped a nt ∨
        (a.hits * lhdDenomWrapped b nt = b.hits * lhdDenomWrapped a nt ∧
          (b.weight < a.weight ∨
            (a.weight = b.weight ∧ a.lastAccess < b.lastAccess)))) := by
  unfold lhdIsBetterCandidate
  dsimp only
  rw [lhdStats_hits, lhdStats_hits, lhdStats_denom, lhdStats_denom]
  split_ifs with h1 h2 h3 <;> simp only [decide_eq_true_eq] <;> omega

/-- A heavy, old item: `age * weight = 2^32 * 2^32` wraps to 0 in the
`uint64` denominator, which the final clamp turns into 1. -/
def lhdItemA : Item Nat :=
  { id := 0, key := "a", value := 0, expires := 0, weight := 4294967296,
    lastAccess := 0, created := 0, hits := 1 }

/-- A light, fresh item: exact denominator 2. -/
def lhdItemB : Item Nat :=
  { id := 1, key := "b", value := 0, expires := 0, weight := 2,
    lastAccess := 0, created := 4294967295, hits := 1 }

/-- C4 counterexample: with exact denominators the claim ranks `A`
(density `1/2^64`) better than `B` (density `1/2`), but
`lhdIsBetterCandidate` computes `A`'s denominator as
`max(1, 2^64 mod 2^64) = 1` and declares `A` not better. -/
theorem lhd_exact_denominator_refuted :
    lhdIsBetterCandidate lhdItemA lhdItemB 4294967296 = false ∧
    specLhdBetter lhdItemA lhdItemB 4294967296 := by
  constructor
  · decide
  · unfold specLhdBetter
    decide

/-- Witness for the amended C4 theorem at a concrete pair of items. -/
theorem lhd_ranking_witness :
    lhdItemB.hits < 18446744073709551616 ∧
    lhdItemA.hits < 18446744073709551616 ∧
    (lhdIsBetterCandidate lhdItemB lhdItemA 4294967296 = true ↔
      (lhdItemB.hits * lhdDenomWrapped lhdItemA 4294967296 <
          lhdItemA.hits * lhdDenomWrapped lhdItemB 4294967296 ∨
        (lhdItemB.hits * lhdDenomWrapped lhdItemA 4294967296 =
            lhdItemA.hits * lhdDenomWrapped lhdItemB 4294967296 ∧
          (lhdItemA.weight < lhdItemB.weight ∨
            (lhdItemB.weight = lhdItemA.weight ∧
              lhdItemB.lastAccess < lhdItemA.lastAccess))))) :=
  ⟨by decide, by decide,
   lhd_ranking lhdItemB lhdItemA 4294967296 (by decide) (by decide)⟩

/-! ## Candidate selection regimes (claim C5) -/

/-- The deterministic full scan for the active policy (the two `switch`
defaults of `pickEvictionCandidate`, cache.go). -/
def Cache.detScan (c : Cache V) : Option (Item V) :=
  if c.cfg.evictionPolicy = SampledLhd then c.scanLeastHitDense else c.scanOldest

/-- The sampled path for the active policy (cache.go). -/
def Cache.sampledPick (c : Cache V) : Option (Item V) × Cache V :=
  if c.cfg.evictionPolicy = SampledLhd then c.pickSampledLhd else c.pickSampledLru

/-- C5: each eviction iteration picks its candidate by the deterministic
full scan for the active policy when the total item count is at most
`sample_size`; otherwise the sampled path is attempted and the
deterministic scan for the same policy is used exactly when the sampled
path returns none. -/
theorem pick_candidate_regimes (c : Cache V) :
    ((c.itemCount : Int) ≤ c.cfg.sampleSize →
      c.pickEvictionCandidate = (c.detScan, c)) ∧
    (¬(c.itemCount : Int) ≤ c.cfg.sampleSize →
      (∀ best : Item V, (c.sampledPick).1 = some best →
        c.pickEvictionCandidate = (some best, (c.sampledPick).2)) ∧
      ((c.sampledPick).1 = none →
        c.pickEvictionCandidate = ((c.sampledPick).2.detScan, (c.sampledPick).2))) := by
  constructor
  · intro h
    unfold Cache.pickEvictionCandidate Cache.detScan
    rw [if_pos h]
    by_cases h2 : c.cfg.evictionPolicy = SampledLhd
    · rw [if_pos h2, if_pos h2]
    · rw [if_neg h2, if_neg h2]
  · intro h
    constructor
    · intro best hbest
      unfold Cache.pickEvictionCandidate
      rw [if_neg h]
      unfold Cache.sampledPick at hbest
      by_cases h2 : c.cfg.evictionPolicy = SampledLhd
      · rw [if_pos h2]
        rw [if_pos h2] at hbest
        unfold Cache.sampledPick
        dsimp only
        rw [if_pos h2, hbest]
      · rw [if_neg h2]
        rw [if_neg h2] at hbest
        unfold Cache.sampledPick
        dsimp only
        rw [if_neg h2, hbest]
    · intro hnone
      unfold Cache.pickEvictionCandidate
      rw [if_neg h]
      unfold Cache.sampledPick at hnone
      by_cases h2 : c.cfg.evictionPolicy = SampledLhd
      · rw [if_pos h2]
        rw [if_pos h2] at hnone
        dsimp only
        rw [hnone]
        unfold Cache.sampledPick Cache.detScan
        dsimp only
        rw [if_pos h2]
        have hcfg : (c.pickSampledLhd).2.cfg = c.cfg :=
          (sampledLhdLoop_core c.cfg.sampleSize.toNat c none _).1
        rw [if_pos (by rw [hcfg]; exact h2)]
      · rw [if_neg h2]
        rw [if_neg h2] at hnone
        dsimp only
        rw [hnone]
        unfold Cache.sampledPick Cache.detScan
        dsimp only
        rw [if_neg h2]
        have hcfg : (c.pickSampledLru).2.cfg = c.cfg :=
          (sampledLruLoop_core c.cfg.sampleSize.toNat c none _).1
        rw [if_neg (by rw [hcfg]; exact h2)]

/-! ## Read semantics (claims C6, C8, C9) -/

theorem shardAt_setShard_self {c : Cache V} {i : Nat} (hi : i < c.shards.length)
    (sh' : Shard V) : (c.setShard i sh').shardAt i = sh' := by
  unfold Cache.setShard Cache.shardAt
  dsimp only
  rw [List.get?_eq_getElem?, List.getElem?_set_eq (by simpa using hi)]
  rfl

theorem shardIdx_setShard (c : Cache V) (i : Nat) (sh' : Shard V) (k : String) :
    (c.setShard i sh').shardIdx k = c.shardIdx k := by
  unfold Cache.shardIdx Cache.setShard
  dsimp only
  rw [List.length_set]

theorem updateItem_get {s : Shard V} {k : String} {it : Item V}
    (h : alookup k s.store = some it) (f : Item V → Item V) :
    (s.updateItem k f).get k = some (f it) := by
  unfold Shard.updateItem Shard.get
  rw [h]
  dsimp only
  exact alookup_aupdate_self

/-- C6: `Get` returns none on an absent key, returns none on a present
but expired item under treat-expired-as-miss, and otherwise records a hit
with a fresh tick on the item and returns it; `Peek` gives exactly the
same present/miss answer on the same state but never changes any cache
state. -/
theorem get_peek_semantics (c : Cache V) (k : String) (now : Int)
    (hlen : 1 ≤ c.shards.length) :
    (c.peekRaw k = none → c.get k now = (none, c)) ∧
    (∀ item : Item V, c.peekRaw k = some item →
      c.cfg.expirationPolicy = TreatExpiredAsMiss → item.ExpiredAt now →
      c.get k now = (none, c)) ∧
    (∀ item : Item V, c.peekRaw k = some item →
      ¬(c.cfg.expirationPolicy = TreatExpiredAsMiss ∧ item.ExpiredAt now) →
      (c.get k now).1 = some (item.recordHit (c.accessClock + 1)) ∧
      (item.recordHit (c.accessClock + 1)).hits = item.hits + 1 ∧
      (item.recordHit (c.accessClock + 1)).lastAccess = c.accessClock + 1 ∧
      (c.get k now).2.accessClock = c.accessClock + 1 ∧
      (c.get k now).2.peekRaw k = some (item.recordHit (c.accessClock + 1))) ∧
    ((c.peek k now).2 = c ∧ ((c.peek k now).1 = none ↔ (c.get k now).1 = none)) := by
  refine ⟨?_, ?_, ?_, ?_⟩
  · intro h
    unfold Cache.peekRaw at h
    unfold Cache.get
    dsimp only
    rw [h]
  · intro item h hpol hexp
    unfold Cache.peekRaw at h
    unfold Cache.get
    dsimp only
    rw [h]
    dsimp only
    rw [if_pos ⟨hpol, hexp⟩]
  · intro item h hx
    unfold Cache.peekRaw at h
    unfold Cache.get
    dsimp only
    rw [h]
    dsimp only
    rw [if_neg hx]
    dsimp only
    refine ⟨rfl, rfl, rfl, rfl, ?_⟩
    show (c.nextTick.2.setShard (c.shardIdx k) _).peekRaw k = _
    unfold Cache.peekRaw
    rw [shardIdx_setShard]
    have hi : c.shardIdx k < c.nextTick.2.shards.length := shardIdx_lt c k hlen
    rw [show c.nextTick.2.shardIdx k = c.shardIdx k from rfl]
    rw [shardAt_setShard_self hi]
    have hsh : alookup k (c.nextTick.2.shardAt (c.shardIdx k)).store = some item := h
    exact updateItem_get hsh _
  · constructor
    · exact peek_state c k now
    · unfold Cache.peek Cache.get
      dsimp only
      cases hsh : (c.shardAt (c.shardIdx k)).get k with
      | none => simp
      | some item =>
        dsimp only
        by_cases hx : c.cfg.expirationPolicy = TreatExpiredAsMiss ∧ item.ExpiredAt now
        · rw [if_pos hx, if_pos hx]
        · rw [if_neg hx, if_neg hx]
          simp

theorem get_of_absent {c : Cache V} {k : String} {now : Int}
    (h : c.peekRaw k = none) : c.get k now = (none, c) := by
  unfold Cache.peekRaw at h
  unfold Cache.get
  dsimp only
  rw [h]

theorem get_of_expired_miss {c : Cache V} {k : String} {now : Int} {item : Item V}
    (h : c.peekRaw k = some item)
    (hpol : c.cfg.expirationPolicy = TreatExpiredAsMiss)
    (hexp : item.ExpiredAt now) : c.get k now = (none, c) := by
  unfold Cache.peekRaw at h
  unfold Cache.get
  dsimp only
  rw [h]
  dsimp only
  rw [if_pos ⟨hpol, hexp⟩]

theorem get_of_present {c : Cache V} {k : String} {now : Int} {item : Item V}
    (h : c.peekRaw k = some item)
    (hx : ¬(c.cfg.expirationPolicy = TreatExpiredAsMiss ∧ item.ExpiredAt now)) :
    (c.get k now).1 = some (item.recordHit (c.accessClock + 1)) := by
  unfold Cache.peekRaw at h
  unfold Cache.get
  dsimp only
  rw [h]
  dsimp only
  rw [if_neg hx]
  rfl

theorem peek_of_expired_miss {c : Cache V} {k : String} {now : Int} {item : Item V}
    (h : c.peekRaw k = some item)
    (hpol : c.cfg.expirationPolicy = TreatExpiredAsMiss)
    (hexp : item.ExpiredAt now) : (c.peek k now).1 = none := by
  unfold Cache.peekRaw at h
  unfold Cache.peek
  rw [h]
  dsimp only
  rw [if_pos ⟨hpol, hexp⟩]

/-- C8: on a stored item that is expired while the expiration policy is
treat-expired-as-miss, `Get` and `Peek` return none, yet `Replace` and
`Extend` on the same state both return true, because they look the item
up with the policy-ignoring raw peek. -/
theorem expired_item_raw_write_paths [DecidableEq V] (w : String → V → Int)
    (c : Cache V) (k : String) (v : V) (d now : Int) (item : Item V)
    (hpol : c.cfg.expirationPolicy = TreatExpiredAsMiss)
    (hst : c.peekRaw k = some item) (hexp : item.ExpiredAt now) :
    (c.get k now).1 = none ∧ (c.peek k now).1 = none ∧
    (c.replaceOp w k v now).1 = true ∧ (c.extendOp k d now).1 = true := by
  refine ⟨?_, ?_, ?_, ?_⟩
  · rw [get_of_expired_miss hst hpol hexp]
  · exact peek_of_expired_miss hst hpol hexp
  · unfold Cache.replaceOp
    rw [hst]
  · unfold Cache.extendOp
    rw [hst]

/-- C9: `Get` on an expired key under treat-expired-as-miss returns none
and leaves the cache completely unchanged: the expired item stays stored,
keeps contributing its weight to `size`, and keeps counting toward
`Len`/`ItemCount`/`IsEmpty`; `Peek` does not remove it either. -/
theorem get_expired_miss_frame (c : Cache V) (k : String) (now : Int)
    (item : Item V) (hpol : c.cfg.expirationPolicy = TreatExpiredAsMiss)
    (hst : c.peekRaw k = some item) (hexp : item.ExpiredAt now) :
    c.get k now = (none, c) ∧
    (c.get k now).2.peekRaw k = some item ∧
    (c.get k now).2.size = c.size ∧
    (c.get k now).2.itemCount = c.itemCount ∧
    (c.get k now).2.len = c.len ∧
    (c.get k now).2.isEmpty = c.isEmpty ∧
    (c.peek k now).2 = c := by
  have h1 : c.get k now = (none, c) := get_of_expired_miss hst hpol hexp
  exact ⟨h1, by rw [h1]; exact hst, by rw [h1], by rw [h1], by rw [h1],
    by rw [h1], peek_state c k now⟩

theorem shardAt_setShard_ne {c : Cache V} {i j : Nat} (hne : i ≠ j)
    (sh' : Shard V) : (c.setShard i sh').shardAt j = c.shardAt j := by
  unfold Cache.setShard Cache.shardAt
  dsimp only
  rw [List.get?_eq_getElem?, List.get?_eq_getElem?, List.getElem?_set_ne hne]

theorem peekRaw_congr {c c' : Cache V} (h : c'.shards = c.shards) (k : String) :
    c'.peekRaw k = c.peekRaw k := by
  unfold Cache.peekRaw Cache.shardAt Cache.shardIdx
  rw [h]

theorem evictStep_peekRaw [DecidableEq V] {c : Cache V} (hc : CacheInv c)
    (cand : Item V) (k : String) :
    (evictStep c cand).peekRaw k = c.peekRaw k ∨
      (evictStep c cand).peekRaw k = none := by
  have hi : c.shardIdx cand.key < c.shards.length := shardIdx_lt c cand.key hc.1
  have hstep : (evictStep c cand).peekRaw k =
      (c.setShard (c.shardIdx cand.key)
        ((c.shardAt (c.shardIdx cand.key)).deleteIfSame cand.key cand).2).peekRaw k := by
    unfold evictStep
    dsimp only
    by_cases hok : ((c.shardAt (c.shardIdx cand.key)).deleteIfSame cand.key cand).1
    · rw [if_pos hok]
      exact peekRaw_congr rfl k
    · rw [if_neg hok]
  rw [hstep]
  unfold Cache.peekRaw
  rw [shardIdx_setShard]
  by_cases hj : c.shardIdx cand.key = c.shardIdx k
  · rw [← hj, shardAt_setShard_self hi]
    rcases deleteIfSame_cases (c.shardAt (c.shardIdx cand.key)) cand.key cand with
      ⟨_, hsame⟩ | ⟨_, hlk, hst⟩
    · rw [hsame]
      left
      rfl
    · unfold Shard.get
      rw [hst]
      by_cases hk : k = cand.key
      · right
        rw [hk]
        exact alookup_aerase_self (hc.2.1 _ (shardAt_mem hi))
      · left
        rw [alookup_aerase_ne hk]
  · rw [shardAt_setShard_ne hj]
    left
    rfl

theorem evictLoop_peekRaw [DecidableEq V] :
    ∀ (fuel : Nat) (c : Cache V), CacheInv c → ∀ k : String,
      (evictLoop fuel c).1.peekRaw k = c.peekRaw k ∨
        (evictLoop fuel c).1.peekRaw k = none := by
  intro fuel
  induction fuel with
  | zero => intro c _ k; left; rfl
  | succ n ih =>
    intro c hc k
    by_cases hsz : c.size ≤ c.cfg.maxWeight
    · simp only [evictLoop, if_pos hsz]
      left
      trivial
    · simp only [evictLoop, if_neg hsz]
      cases hpk : (c.pickEvictionCandidate).1 with
      | none =>
        dsimp only
        left
        exact peekRaw_congr (pick_core c).2.1 k
      | some cand =>
        dsimp only
        have hcore := pick_core c
        have hinv' : CacheInv (c.pickEvictionCandidate).2 := cacheInv_of_core hcore hc
        have h1 := ih (evictStep (c.pickEvictionCandidate).2 cand)
          (evictStep_inv hinv' cand) k
        have h2 := evictStep_peekRaw hinv' cand k
        have h3 : (c.pickEvictionCandidate).2.peekRaw k = c.peekRaw k :=
          peekRaw_congr hcore.2.1 k
        rcases h1 with h1 | h1
        · rcases h2 with h2 | h2
          · left
            rw [h1, h2, h3]
          · right
            rw [h1, h2]
        · right
          exact h1

theorem setInstall_peekRaw {cb : Cache V} (hlen : 1 ≤ cb.shards.length)
    (k : String) (item : Item V) :
    (setInstall cb k item).peekRaw k = some item := by
  have hi : cb.shardIdx k < cb.shards.length := shardIdx_lt cb k hlen
  have hbase : (cb.setShard (cb.shardIdx k)
      ((cb.shardAt (cb.shardIdx k)).set k item).2).peekRaw k = some item := by
    unfold Cache.peekRaw
    rw [shardIdx_setShard, shardAt_setShard_self hi]
    unfold Shard.get
    rw [Shard.set_store]
    exact alookup_aupdate_self
  unfold setInstall
  dsimp only
  cases hres : ((cb.shardAt (cb.shardIdx k)).set k item).1 with
  | none =>
    dsimp only
    rw [← hbase]
    exact peekRaw_congr rfl k
  | some old =>
    dsimp only
    rw [← hbase]
    exact peekRaw_congr rfl k

theorem setOp_stored_item [DecidableEq V] (w : String → V → Int) {c : Cache V}
    (hc : CacheInv c) (k : String) (v : V) (d now : Int) :
    ∀ it' : Item V, (c.setOp w k v d now).1.peekRaw k = some it' →
      it' = ((newItem c.nextId k v (now + d) (w k v)).setCreatedTick
        (c.accessClock + 1)).touch (c.accessClock + 1) := by
  intro it' h
  unfold Cache.setOp Cache.evictIfNeeded at h
  dsimp only at h
  have hc1 : CacheInv ({ c with nextId := c.nextId + 1 } : Cache V).nextTick.2 :=
    ⟨hc.1, hc.2.1, hc.2.2.1, hc.2.2.2⟩
  have hinst := cacheInv_setInstall hc1 k
    ((newItem c.nextId k v (now + d) (w k v)).setCreatedTick
      ({ c with nextId := c.nextId + 1 } : Cache V).nextTick.1 |>.touch
      ({ c with nextId := c.nextId + 1 } : Cache V).nextTick.1)
  have hXpk := setInstall_peekRaw hc1.1 k
    ((newItem c.nextId k v (now + d) (w k v)).setCreatedTick
      ({ c with nextId := c.nextId + 1 } : Cache V).nextTick.1 |>.touch
      ({ c with nextId := c.nextId + 1 } : Cache V).nextTick.1)
  have hmono := evictLoop_peekRaw
    (setInstall ({ c with nextId := c.nextId + 1 } : Cache V).nextTick.2 k
      ((newItem c.nextId k v (now + d) (w k v)).setCreatedTick
        ({ c with nextId := c.nextId + 1 } : Cache V).nextTick.1 |>.touch
        ({ c with nextId := c.nextId + 1 } : Cache V).nextTick.1)).cfg.itemsToPrune.toNat
    _ hinst k
  rcases hmono with hm | hm
  · rw [h, hXpk] at hm
    exact Option.some.inj hm
  · rw [hm] at h
    exact Option.noConfusion h

/-- C7: `Replace` on an absent key returns false and leaves the cache
state unchanged; on a stored key it returns true, whatever item is then
stored under the key holds the new value with the old item's expiry
deadline (i.e. it was inserted with the remaining TTL read from the old
item), and a subsequent `Get` — absent eviction of the key and absent an
expiry miss — returns the new value. -/
theorem replace_semantics [DecidableEq V] (w : String → V → Int) {c : Cache V}
    (hc : CacheInv c) (k : String) (v : V) (now : Int) :
    (c.peekRaw k = none → c.replaceOp w k v now = (false, c)) ∧
    (∀ item : Item V, c.peekRaw k = some item →
      (c.replaceOp w k v now).1 = true ∧
      (∀ it' : Item V, (c.replaceOp w k v now).2.peekRaw k = some it' →
        it'.value = v ∧ it'.expires = item.expires) ∧
      (∀ (nowG : Int) (it' : Item V),
        (c.replaceOp w k v now).2.peekRaw k = some it' →
        ¬((c.replaceOp w k v now).2.cfg.expirationPolicy = TreatExpiredAsMiss ∧
          it'.ExpiredAt nowG) →
        (((c.replaceOp w k v now).2.get k nowG).1).map Item.value = some v)) := by
  constructor
  · intro h
    unfold Cache.replaceOp
    rw [h]
  · intro item hst
    have hrep : c.replaceOp w k v now =
        (true, (c.setOp w k v (item.ttlAt now) now).1) := by
      unfold Cache.replaceOp
      rw [hst]
    refine ⟨by rw [hrep], ?_, ?_⟩
    · intro it' h'
      rw [hrep] at h'
      dsimp only at h'
      have heq := setOp_stored_item w hc k v (item.ttlAt now) now it' h'
      rw [heq]
      refine ⟨rfl, ?_⟩
      show now + (item.expires - now) = item.expires
      ring
    · intro nowG it' h' hx
      rw [hrep] at h' hx ⊢
      dsimp only at h' hx ⊢
      have hval : it'.value = v := by
        rw [setOp_stored_item w hc k v (item.ttlAt now) now it' h']
        rfl
      rw [get_of_present h' hx]
      show some (it'.recordHit _).value = some v
      rw [show (it'.recordHit ((c.setOp w k v (item.ttlAt now) now).1.accessClock + 1)).value
        = it'.value from rfl, hval]

theorem get_cfg (c : Cache V) (k : String) (now : Int) :
    (c.get k now).2.cfg = c.cfg := by
  unfold Cache.get
  dsimp only
  cases h : (c.shardAt (c.shardIdx k)).get k with
  | none => rfl
  | some item =>
    dsimp only
    by_cases hx : c.cfg.expirationPolicy = TreatExpiredAsMiss ∧ item.ExpiredAt now
    · rw [if_pos hx]
    · rw [if_neg hx]
      rfl

theorem get_result_not_expired {c : Cache V} {k : String} {now : Int}
    {it : Item V} (hpol : c.cfg.expirationPolicy = TreatExpiredAsMiss)
    (h : (c.get k now).1 = some it) : ¬(it.ExpiredAt now) := by
  unfold Cache.get at h
  dsimp only at h
  cases hsh : (c.shardAt (c.shardIdx k)).get k with
  | none =>
    rw [hsh] at h
    exact Option.noConfusion h
  | some item =>
    rw [hsh] at h
    dsimp only at h
    by_cases hx : c.cfg.expirationPolicy = TreatExpiredAsMiss ∧ item.ExpiredAt now
    · rw [if_pos hx] at h
      exact Option.noConfusion h
    · rw [if_neg hx] at h
      dsimp only at h
      have heq : it = item.recordHit c.nextTick.1 := (Option.some.inj h).symm
      rw [heq]
      intro hexp
      exact hx ⟨hpol, hexp⟩

theorem filterFold_not_expired (pattern : String) (now : Int) :
    ∀ (entries : List (String × Item V)) (acc : Cache V × List (Item V)),
      acc.1.cfg.expirationPolicy = TreatExpiredAsMiss →
      (∀ it ∈ acc.2, ¬(it.ExpiredAt now)) →
      (∀ it ∈ (rangeFold (filterFn pattern now) entries acc).2.2,
        ¬(it.ExpiredAt now)) ∧
      (rangeFold (filterFn pattern now) entries acc).2.1.cfg.expirationPolicy =
        TreatExpiredAsMiss := by
  intro entries
  induction entries with
  | nil => intro acc h1 h2; exact ⟨h2, h1⟩
  | cons p r ih =>
    intro acc h1 h2
    simp only [rangeFold]
    have hstep :
        (∀ it ∈ ((filterFn pattern now) acc p.2.key p.2.value).2.2,
          ¬(it.ExpiredAt now)) ∧
        ((filterFn pattern now) acc p.2.key p.2.value).2.1.cfg.expirationPolicy =
          TreatExpiredAsMiss := by
      unfold filterFn
      by_cases hp : strContains p.2.key pattern
      · rw [if_pos hp]
        dsimp only
        cases hg : (acc.1.get p.2.key now).1 with
        | some it0 =>
          dsimp only
          constructor
          · intro it hit
            rcases List.mem_append.mp hit with hmem | hmem
            · exact h2 it hmem
            · rw [List.mem_singleton] at hmem
              rw [hmem]
              exact get_result_not_expired h1 hg
          · rw [get_cfg]
            exact h1
        | none =>
          dsimp only
          exact ⟨h2, by rw [get_cfg]; exact h1⟩
      · rw [if_neg hp]
        exact ⟨h2, h1⟩
    by_cases hcont : ((filterFn pattern now) acc p.2.key p.2.value).1
    · rw [if_pos hcont]
      exact ih _ hstep.2 hstep.1
    · rw [if_neg hcont]
      exact hstep

theorem filterShardsFold_not_expired (pattern : String) (now : Int) :
    ∀ (shs : List (Shard V)) (st : Bool × (Cache V × List (Item V))),
      st.2.1.cfg.expirationPolicy = TreatExpiredAsMiss →
      (∀ it ∈ st.2.2, ¬(it.ExpiredAt now)) →
      (∀ it ∈ (shs.foldl
        (fun st sh => if st.1 then rangeFold (filterFn pattern now) sh.store st.2 else st)
        st).2.2, ¬(it.ExpiredAt now)) := by
  intro shs
  induction shs with
  | nil => intro st h1 h2; exact h2
  | cons s r ih =>
    intro st h1 h2
    simp only [List.foldl_cons]
    by_cases hb : st.1
    · rw [if_pos hb]
      obtain ⟨h3, h4⟩ := filterFold_not_expired pattern now s.store st.2 h1 h2
      exact ih _ h4 h3
    · rw [if_neg hb]
      exact ih _ h1 h2

theorem rangeFold_collect :
    ∀ (entries : List (String × Item V)) (acc : List (String × V)),
      rangeFold collectEntries entries acc =
        (true, acc ++ entries.map (fun p => (p.2.key, p.2.value))) := by
  intro entries
  induction entries with
  | nil => intro acc; simp [rangeFold]
  | cons p r ih =>
    intro acc
    simp only [rangeFold, collectEntries]
    rw [ih]
    simp

theorem rangeShardsFold_collect :
    ∀ (shs : List (Shard V)) (acc : List (String × V)),
      (shs.foldl
        (fun st sh => if st.1 then rangeFold collectEntries sh.store st.2 else st)
        (true, acc)) =
        (true, acc ++
          (shs.map (fun sh => sh.store.map (fun p => (p.2.key, p.2.value)))).join) := by
  intro shs
  induction shs with
  | nil => intro acc; simp
  | cons s r ih =>
    intro acc
    simp only [List.foldl_cons, if_pos]
    rw [rangeFold_collect]
    rw [ih]
    simp

theorem rangeOp_collect (c : Cache V) :
    c.rangeOp collectEntries [] = c.rangeEntries := by
  unfold Cache.rangeOp Cache.rangeEntries
  rw [rangeShardsFold_collect]
  simp

/-- C10: under treat-expired-as-miss, `Filter` omits every matched key
whose stored item is expired: the underlying `Range` delivers every
stored entry (expired or not) to its callback, but `Filter` appends only
items `Get` returns non-none, so no expired item appears in the result. -/
theorem filter_omits_expired (c : Cache V) (pattern : String) (now : Int)
    (hpol : c.cfg.expirationPolicy = TreatExpiredAsMiss) :
    (∀ it ∈ (c.filterOp pattern now).1, ¬(it.ExpiredAt now)) ∧
    (∀ sh ∈ c.shards, ∀ p ∈ sh.store,
      strContains p.2.key pattern → p.2.ExpiredAt now →
      p.2 ∉ (c.filterOp pattern now).1) ∧
    (∀ sh ∈ c.shards, ∀ p ∈ sh.store,
      (p.2.key, p.2.value) ∈ c.rangeOp collectEntries []) := by
  have hmain : ∀ it ∈ (c.filterOp pattern now).1, ¬(it.ExpiredAt now) := by
    unfold Cache.filterOp Cache.rangeOp
    dsimp only
    exact filterShardsFold_not_expired pattern now c.shards (true, (c, []))
      hpol (by intro it hit; simp at hit)
  refine ⟨hmain, ?_, ?_⟩
  · intro sh hsh p hp hmatch hexp hmem
    exact hmain p.2 hmem hexp
  · intro sh hsh p hp
    rw [rangeOp_collect]
    unfold Cache.rangeEntries
    apply List.mem_join.mpr
    refine ⟨sh.store.map (fun p => (p.2.key, p.2.value)), ?_, ?_⟩
    · exact List.mem_map.mpr ⟨sh, hsh, rfl⟩
    · exact List.mem_map.mpr ⟨p, hp, rfl⟩

/-! ## Concrete instances for witnesses -/

/-- A constant weigher for concrete runs. -/
def wNat : String → Nat → Int := fun _ _ => 10

/-- A concrete cache: default configuration, one `Set("a", 7, ttl 100)`
executed at `now = 0`. -/
def cW : Cache Nat := applyOps wNat (Cache.new Nat NewConfig []) [Op.set "a" 7 100 0]

/-- The item that `Set` above stored (expiry deadline 100, tick 1). -/
def itemW : Item Nat :=
  { id := 0, key := "a", value := 7, expires := 100, weight := 10,
    lastAccess := 1, created := 1, hits := 0 }

def itWa : Item Nat :=
  { id := 10, key := "a", value := 1, expires := 50, weight := 3,
    lastAccess := 1, created := 1, hits := 0 }

def itWb : Item Nat :=
  { id := 11, key := "b", value := 2, expires := 60, weight := 4,
    lastAccess := 2, created := 2, hits := 0 }

/-- Witness for C2 at a concrete shard. -/
theorem shard_coherence_witness :
    Coherent (Shard.set (newShard Nat) "a" itWa).2 ∧ itWb.key = "b" ∧
    Coherent (Shard.set (Shard.set (newShard Nat) "a" itWa).2 "b" itWb).2 :=
  ⟨by decide, rfl,
   shard_ops_preserve_coherence.2.1 Nat (Shard.set (newShard Nat) "a" itWa).2
     "b" itWb (by decide) rfl⟩

/-- Witness for C3 at a concrete run. -/
theorem size_eq_stored_weight_witness :
    (∀ (k : String) (v : Nat), 0 ≤ wNat k v) ∧
    (applyOps wNat (Cache.new Nat NewConfig []) [Op.set "a" 7 100 0]).size =
      (applyOps wNat (Cache.new Nat NewConfig [])
        [Op.set "a" 7 100 0]).totalWeight :=
  ⟨fun k v => by unfold wNat; decide,
   size_eq_stored_weight wNat (fun k v => by unfold wNat; decide) NewConfig []
     [Op.set "a" 7 100 0]⟩

/-- Witness for C5 at the freshly built (small) cache. -/
theorem pick_candidate_regimes_witness :
    ((Cache.new Nat NewConfig []).itemCount : Int) ≤
      (Cache.new Nat NewConfig []).cfg.sampleSize ∧
    (Cache.new Nat NewConfig []).pickEvictionCandidate =
      ((Cache.new Nat NewConfig []).detScan, Cache.new Nat NewConfig []) :=
  ⟨by decide, (pick_candidate_regimes (Cache.new Nat NewConfig [])).1 (by decide)⟩

/-- Witness for C6 at the stored item of `cW`. -/
theorem get_peek_semantics_witness :
    1 ≤ cW.shards.length ∧ cW.peekRaw "a" = some itemW ∧
    ¬(cW.cfg.expirationPolicy = TreatExpiredAsMiss ∧ itemW.ExpiredAt 0) ∧
    (cW.get "a" 0).1 = some (itemW.recordHit (cW.accessClock + 1)) :=
  ⟨by decide, by decide, by decide,
   ((get_peek_semantics cW "a" 0 (by decide)).2.2.1 itemW (by decide)
     (by decide)).1⟩

/-- Witness for C7 at `cW`. -/
theorem replace_semantics_witness :
    CacheInv cW ∧ cW.peekRaw "a" = some itemW ∧
    (cW.replaceOp wNat "a" 9 0).1 = true :=
  ⟨by decide, by decide,
   ((replace_semantics wNat (c := cW) (by decide) "a" 9 0).2 itemW (by decide)).1⟩

/-- Witness for C8: at `now = 200` the stored item of `cW` is expired. -/
theorem expired_item_raw_write_paths_witness :
    cW.cfg.expirationPolicy = TreatExpiredAsMiss ∧
    cW.peekRaw "a" = some itemW ∧ itemW.ExpiredAt 200 ∧
    ((cW.get "a" 200).1 = none ∧ (cW.peek "a" 200).1 = none ∧
      (cW.replaceOp wNat "a" 9 200).1 = true ∧
      (cW.extendOp "a" 50 200).1 = true) :=
  ⟨by decide, by decide, by decide,
   expired_item_raw_write_paths wNat cW "a" 9 50 200 itemW (by decide)
     (by decide) (by decide)⟩

/-- Witness for C9 at the same expired read. -/
theorem get_expired_miss_frame_witness :
    cW.cfg.expirationPolicy = TreatExpiredAsMiss ∧
    cW.peekRaw "a" = some itemW ∧ itemW.ExpiredAt 200 ∧
    (cW.get "a" 200 = (none, cW) ∧
      (cW.get "a" 200).2.peekRaw "a" = some itemW ∧
      (cW.get "a" 200).2.size = cW.size ∧
      (cW.get "a" 200).2.itemCount = cW.itemCount ∧
      (cW.get "a" 200).2.len = cW.len ∧
      (cW.get "a" 200).2.isEmpty = cW.isEmpty ∧
      (cW.peek "a" 200).2 = cW) :=
  ⟨by decide, by decide, by decide,
   get_expired_miss_frame cW "a" 200 itemW (by decide) (by decide) (by decide)⟩

/-- Witness for C10 at `cW` with the expired item matched by the
pattern. -/
theorem filter_omits_expired_witness :
    cW.cfg.expirationPolicy = TreatExpiredAsMiss ∧
    (∀ it ∈ (cW.filterOp "a" 200).1, ¬(it.ExpiredAt 200)) :=
  ⟨by decide, (filter_omits_expired cW "a" 200 (by decide)).1⟩
